import Mathlib

/-!
Verification development for the anom object-document mapper.

Shallow embedding of `anom/model.py` (keys, batch operations, model
equality), `anom/properties.py` (String validation), `anom/transaction.py`
(the `transactional` decorator), `anom/adapters/datastore_adapter.py` and
`anom/adapters/memcache_adapter.py` (transaction propagation and the
caching layer).

A Python `Key` is a recursive object `(kind, id_or_name, parent, namespace)`
whose `parent` is another `Key` or `None`.  We represent it as the leaf
level plus the list of ancestor levels (immediate parent first), which is
the same data without nested recursion through `Option`.
-/

set_option maxRecDepth 12000

namespace Anom

/-- An id_or_name value of a key: an integer id or a string name
(`id_or_name(int or str)` in `model.py`). -/
inductive IdOrName where
  | intId (n : Int)
  | strId (s : String)
deriving DecidableEq, Repr

/-- Python truthiness of an `id_or_name` value: `0` and `""` are falsy.
`Key.path` tests `if self.id_or_name:`, so falsy ids are dropped from the
path exactly like missing ones. -/
def IdOrName.truthy : IdOrName → Bool
  | .intId n => decide (n ≠ 0)
  | .strId s => decide (s ≠ "")

/-- Truthiness of the optional `id_or_name` field. -/
def idTruthy : Option IdOrName → Bool
  | none => false
  | some i => i.truthy

/-- One level of a key chain: the `kind`, `id_or_name` and `namespace`
fields of one Python `Key` object. -/
structure KeyLevel where
  kind : String
  idOrName : Option IdOrName
  ns : Option String
deriving DecidableEq, Repr

/-- A Datastore key (`Key` in `model.py`): its own level plus the chain of
ancestor levels, immediate parent first.  `ancs = []` means `parent is
None`. -/
structure Key where
  leaf : KeyLevel
  ancs : List KeyLevel
deriving DecidableEq, Repr

/-- The `parent` attribute of a key. -/
def Key.parent? (k : Key) : Option Key :=
  match k.ancs with
  | [] => none
  | a :: rest => some ⟨a, rest⟩

/-- The `namespace` attribute of a key (the leaf object's namespace). -/
def Key.ns (k : Key) : Option String := k.leaf.ns

/-- The `kind` attribute of a key. -/
def Key.kind (k : Key) : String := k.leaf.kind

/-- A segment of a flattened key path.  In Python the path is a tuple
mixing kind strings with int-or-str ids. -/
inductive PathTok where
  | pstr (s : String)
  | pint (n : Int)
deriving DecidableEq, Repr

/-- The path token of an id value. -/
def IdOrName.tok : IdOrName → PathTok
  | .intId n => .pint n
  | .strId s => .pstr s

/-- The contribution of one key level to the flattened path: `(kind, id)`
when the id is truthy, `(kind,)` otherwise (`Key.path` in `model.py`). -/
def KeyLevel.toks (l : KeyLevel) : List PathTok :=
  match l.idOrName with
  | some i => if i.truthy then [.pstr l.kind, i.tok] else [.pstr l.kind]
  | none => [.pstr l.kind]

/-- The levels of a key from the root ancestor down to the leaf. -/
def Key.levelsRootFirst (k : Key) : List KeyLevel :=
  (k.leaf :: k.ancs).reverse

/-- `Key.path`: the parent's path followed by this key's own segment. -/
def Key.pathL (k : Key) : List PathTok :=
  k.levelsRootFirst.flatMap KeyLevel.toks

/-- `Key.is_partial`: true when the flattened path has odd length. -/
def Key.incomplete (k : Key) : Bool :=
  k.pathL.length % 2 != 0

/-- Embedding of `Key.__eq__` (`model.py`): two keys are equal when their
parents compare equal (recursively), their namespaces are equal and their
flattened paths are equal.  Structured as a recursion over the two
ancestor chains. -/
def keyEqAux : KeyLevel → List KeyLevel → KeyLevel → List KeyLevel → Bool
  | la, aa, lb, ab =>
    (match aa, ab with
     | [], [] => true
     | pa :: ra, pb :: rb => keyEqAux pa ra pb rb
     | _, _ => false)
    && decide (la.ns = lb.ns)
    && decide (Key.pathL ⟨la, aa⟩ = Key.pathL ⟨lb, ab⟩)

/-- `Key.__eq__` on whole keys. -/
def keyEq (a b : Key) : Bool :=
  keyEqAux a.leaf a.ancs b.leaf b.ancs

/-- Key equality is reflexive (Python short-circuits on `self is other`;
structurally equal keys also compare equal field by field). -/
theorem keyEq_refl (k : Key) : keyEq k k = true := by
  obtain ⟨l, a⟩ := k
  induction a generalizing l with
  | nil => simp [keyEq, keyEqAux]
  | cons p rest ih =>
      simp only [keyEq] at ih ⊢
      simp [keyEqAux, ih p]

/-- Structurally equal keys satisfy `Key.__eq__`. -/
theorem keyEq_of_eq {a b : Key} (h : a = b) : keyEq a b = true := by
  subst h; exact keyEq_refl a

/-- Embedding of `Key.from_path`: consume the path two segments at a time,
building each level with the given namespace and the previously built key
as parent.  `Key.__new__` raises `ValueError` when the parent is partial,
modelled as `Except`.  A non-string token in kind position does not occur
for paths of real keys; the model rejects it. -/
def PathTok.toId : PathTok → IdOrName
  | .pstr s => .strId s
  | .pint n => .intId n

/-- Attach a new level below `parent` (the `Key(...)` constructor call
inside the `from_path` loop, minus the partial-parent check). -/
def attachLevel (parent : Option Key) (lvl : KeyLevel) : Key :=
  match parent with
  | none => ⟨lvl, []⟩
  | some p => ⟨lvl, p.leaf :: p.ancs⟩

def fromPathAux (ns : Option String) : Option Key → List PathTok → Except Unit (Option Key)
  | parent, [] => .ok parent
  | parent, t1 :: rest =>
    match t1 with
    | .pint _ => .error ()
    | .pstr kind =>
      -- `if parent and parent.is_partial: raise ValueError`
      if (parent.map Key.incomplete).getD false then .error ()
      else
        match rest with
        | [] => .ok (some (attachLevel parent ⟨kind, none, ns⟩))
        | t2 :: r => fromPathAux ns (some (attachLevel parent ⟨kind, some t2.toId, ns⟩)) r

/-- `Key.from_path(*path, namespace=ns)`. -/
def Key.fromPath (path : List PathTok) (ns : Option String) : Except Unit (Option Key) :=
  fromPathAux ns none path

/-- A key is fully specified when its own id and every ancestor's id is a
truthy value (so no level contributes a bare kind to the path). -/
def Key.specified (k : Key) : Bool :=
  (k.leaf :: k.ancs).all fun l => idTruthy l.idOrName

/-- Every level of the key carries namespace `ns`. -/
def Key.uniformNs (k : Key) (ns : Option String) : Bool :=
  (k.leaf :: k.ancs).all fun l => decide (l.ns = ns)

/-- The key built by the `from_path` loop after consuming a list of
levels, starting from `parent`. -/
def buildKey (parent : Option Key) (levels : List KeyLevel) : Option Key :=
  levels.foldl (fun p l => some (attachLevel p l)) parent

/-- A parent slot is acceptable to `Key.__new__`: absent, or complete. -/
def okParent (p : Option Key) : Prop :=
  (p.map Key.incomplete).getD false = false

theorem pathL_attachLevel (parent : Option Key) (lvl : KeyLevel) :
    (attachLevel parent lvl).pathL =
      (match parent with | none => [] | some p => p.pathL) ++ lvl.toks := by
  cases parent with
  | none => simp [attachLevel, Key.pathL, Key.levelsRootFirst]
  | some p =>
      simp [attachLevel, Key.pathL, Key.levelsRootFirst, List.reverse_cons]

theorem toks_length_of_truthy {l : KeyLevel} (h : idTruthy l.idOrName = true) :
    l.toks.length = 2 := by
  unfold KeyLevel.toks
  cases hio : l.idOrName with
  | none => rw [hio] at h; simp [idTruthy] at h
  | some i =>
      rw [hio] at h
      simp only [idTruthy] at h
      simp [h]

theorem id_tok_roundtrip (i : IdOrName) : i.tok.toId = i := by
  cases i <;> rfl

theorem okParent_attach {parent : Option Key} {l : KeyLevel}
    (hp : okParent parent) (hl : idTruthy l.idOrName = true) :
    okParent (some (attachLevel parent l)) := by
  cases parent with
  | none =>
      simp [okParent, Key.incomplete, pathL_attachLevel, toks_length_of_truthy hl]
  | some p =>
      simp [okParent, Key.incomplete, pathL_attachLevel,
        toks_length_of_truthy hl] at hp ⊢
      omega

/-- Main loop invariant for `from_path`: consuming the flattened tokens of
a list of truthy, namespace-uniform levels rebuilds exactly those levels. -/
theorem fromPathAux_spec (ns : Option String) (levels : List KeyLevel) :
    ∀ parent : Option Key, okParent parent →
      (∀ l ∈ levels, idTruthy l.idOrName = true ∧ l.ns = ns) →
      fromPathAux ns parent (levels.flatMap KeyLevel.toks) =
        .ok (buildKey parent levels) := by
  induction levels with
  | nil => intro parent _ _; simp [buildKey, fromPathAux]
  | cons l rest ih =>
      intro parent hp hl
      obtain ⟨ht, hns⟩ := hl l (by simp)
      obtain ⟨i, hio, hit⟩ : ∃ i, l.idOrName = some i ∧ i.truthy = true := by
        cases hio : l.idOrName with
        | none => rw [hio] at ht; simp [idTruthy] at ht
        | some i => exact ⟨i, rfl, by rw [hio] at ht; simpa [idTruthy] using ht⟩
      have htoks : l.toks = [.pstr l.kind, i.tok] := by
        simp [KeyLevel.toks, hio, hit]
      have hrebuild : (⟨l.kind, some i.tok.toId, ns⟩ : KeyLevel) = l := by
        rw [id_tok_roundtrip, ← hns, ← hio]
      have hre : okParent parent → fromPathAux ns parent
          (PathTok.pstr l.kind :: i.tok :: rest.flatMap KeyLevel.toks) =
          fromPathAux ns (some (attachLevel parent ⟨l.kind, some i.tok.toId, ns⟩))
            (rest.flatMap KeyLevel.toks) := by
        intro hok
        simp only [okParent] at hok
        simp [fromPathAux, hok]
      rw [List.flatMap_cons, htoks]
      simp only [List.cons_append, List.nil_append]
      rw [hre hp, hrebuild]
      rw [ih (some (attachLevel parent l)) (okParent_attach hp ht)
        (fun x hx => hl x (by simp [hx]))]
      rfl

theorem buildKey_append (parent : Option Key) (xs : List KeyLevel) (l : KeyLevel) :
    buildKey parent (xs ++ [l]) = some (attachLevel (buildKey parent xs) l) := by
  simp [buildKey, List.foldl_append]

theorem buildKey_levels (leaf : KeyLevel) (ancs : List KeyLevel) :
    buildKey none (Key.levelsRootFirst ⟨leaf, ancs⟩) = some ⟨leaf, ancs⟩ := by
  induction ancs generalizing leaf with
  | nil => rfl
  | cons a rest ih =>
      show buildKey none ((leaf :: a :: rest).reverse) = _
      rw [List.reverse_cons]
      have : (a :: rest).reverse = Key.levelsRootFirst ⟨a, rest⟩ := rfl
      rw [this, buildKey_append, ih a]
      rfl

/-- C7 (amended): for every fully-specified key `k` (every level's id is a
truthy value) all of whose levels share `k`'s namespace,
`Key.from_path(*k.path, namespace=k.namespace)` succeeds and yields a key
equal to `k` under `Key.__eq__`.  The claim as frozen fails when an
ancestor carries a different namespace (see the counterexample). -/
theorem key_from_path_roundtrip (k : Key)
    (hspec : k.specified = true) (hns : k.uniformNs k.ns = true) :
    ∃ k', Key.fromPath k.pathL k.ns = .ok (some k') ∧ keyEq k' k = true := by
  refine ⟨k, ?_, keyEq_refl k⟩
  unfold Key.fromPath Key.pathL
  rw [fromPathAux_spec k.ns k.levelsRootFirst none (by simp [okParent]) ?_]
  · obtain ⟨leaf, ancs⟩ := k
    rw [buildKey_levels]
  · intro l hl
    have hmem : l ∈ k.leaf :: k.ancs := by
      rw [Key.levelsRootFirst, List.mem_reverse] at hl
      exact hl
    refine ⟨?_, ?_⟩
    · simp only [Key.specified, List.all_eq_true] at hspec
      exact hspec l hmem
    · simp only [Key.uniformNs, List.all_eq_true, decide_eq_true_eq] at hns
      exact hns l hmem

/-- C7 counterexample: a fully-specified key whose ancestor has namespace
`"ns1"` while the key itself has none.  Rebuilding from the flattened path
with the key's own namespace produces a key that `Key.__eq__` rejects, so
the claim as stated (for every fully-specified key) is false. -/
theorem key_from_path_roundtrip_cex :
    (Key.specified ⟨⟨"B", some (.intId 2), none⟩, [⟨"A", some (.intId 1), some "ns1"⟩]⟩) = true ∧
    Key.fromPath
        (Key.pathL ⟨⟨"B", some (.intId 2), none⟩, [⟨"A", some (.intId 1), some "ns1"⟩]⟩)
        (Key.ns ⟨⟨"B", some (.intId 2), none⟩, [⟨"A", some (.intId 1), some "ns1"⟩]⟩) =
      .ok (some ⟨⟨"B", some (.intId 2), none⟩, [⟨"A", some (.intId 1), none⟩]⟩) ∧
    keyEq ⟨⟨"B", some (.intId 2), none⟩, [⟨"A", some (.intId 1), none⟩]⟩
        ⟨⟨"B", some (.intId 2), none⟩, [⟨"A", some (.intId 1), some "ns1"⟩]⟩ = false :=
  ⟨by decide, rfl, by decide⟩

/-- C7 witness: the amended round trip evaluated on a concrete two-level
key with a uniform namespace. -/
theorem key_from_path_roundtrip_witness :
    ((Key.specified ⟨⟨"B", some (.strId "x"), some "n"⟩, [⟨"A", some (.intId 7), some "n"⟩]⟩) = true ∧
     (Key.uniformNs ⟨⟨"B", some (.strId "x"), some "n"⟩, [⟨"A", some (.intId 7), some "n"⟩]⟩
        (Key.ns ⟨⟨"B", some (.strId "x"), some "n"⟩, [⟨"A", some (.intId 7), some "n"⟩]⟩)) = true) ∧
    ∃ k', Key.fromPath
        (Key.pathL ⟨⟨"B", some (.strId "x"), some "n"⟩, [⟨"A", some (.intId 7), some "n"⟩]⟩)
        (Key.ns ⟨⟨"B", some (.strId "x"), some "n"⟩, [⟨"A", some (.intId 7), some "n"⟩]⟩) = .ok (some k') ∧
      keyEq k' ⟨⟨"B", some (.strId "x"), some "n"⟩, [⟨"A", some (.intId 7), some "n"⟩]⟩ = true :=
  ⟨⟨by decide, by decide⟩,
    key_from_path_roundtrip _ (by decide) (by decide)⟩

/-! String property validation (`properties.py`). -/

/-- `_max_indexed_length` from `properties.py`. -/
def maxIndexedLength : Nat := 1500

/-- The `indexed` / `repeated` configuration of a `String` property.  The
default encoding is utf-8, so `len(value.encode(self.encoding))` is the
utf-8 byte size of the value. -/
structure StrProp where
  indexed : Bool
  repeated : Bool
deriving DecidableEq, Repr

/-- The failure condition of `String._validate_length`: Python raises
`ValueError` only when `len(value) > 1500 and len(value.encode(...)) > 1500`. -/
def validateLengthFails (v : String) : Bool :=
  decide (v.length > maxIndexedLength) && decide (v.utf8ByteSize > maxIndexedLength)

/-- `String.validate` on a value that is a `str` (so the base
`Property.validate` type check passes): unindexed values are returned
as-is, indexed non-repeated values go through `_validate_length`. -/
def stringValidate (p : StrProp) (v : String) : Except Unit String :=
  if p.indexed = false then .ok v
  else if p.repeated = false then
    if validateLengthFails v then .error () else .ok v
  else .ok v

/-- C6 (amended): an indexed, non-repeated String value fails validation
exactly when BOTH its character count and its encoded byte length exceed
1500; unindexed (or repeated) String properties never hit the length
check.  In particular a value of at most 1500 characters validates no
matter how many encoded bytes it has, so the frozen claim's "1501 encoded
bytes fails regardless of character count" is false (see the
counterexample), while "exactly 1500 encoded bytes validates" holds since
the utf-8 encoding of a string is never shorter than its character
count. -/
theorem string_validate_indexed_bound (p : StrProp) (v : String) :
    stringValidate p v = .error () ↔
      (p.indexed = true ∧ p.repeated = false ∧
       maxIndexedLength < v.length ∧ maxIndexedLength < v.utf8ByteSize) := by
  cases hi : p.indexed <;> cases hr : p.repeated <;>
    simp [stringValidate, validateLengthFails, hi, hr]

/-- C6 counterexample: 751 copies of the two-byte character `é` encode to
1502 bytes, which exceeds 1500, yet the indexed non-repeated validator
accepts the value because its character count (751) is below the limit.
The claim that any string whose encoding exceeds 1500 bytes fails is
therefore false on the code. -/
theorem string_validate_cex :
    stringValidate ⟨true, false⟩ (String.mk (List.replicate 751 'é')) =
      .ok (String.mk (List.replicate 751 'é')) ∧
    (String.mk (List.replicate 751 'é')).utf8ByteSize = 1502 ∧
    maxIndexedLength < (String.mk (List.replicate 751 'é')).utf8ByteSize :=
  ⟨rfl, by decide, by decide⟩

/-- C6 witness: the amended bound evaluated on a 1501-character ASCII
string, which the indexed non-repeated validator rejects. -/
theorem string_validate_indexed_bound_witness :
    stringValidate ⟨true, false⟩ (String.mk (List.replicate 1501 'a')) = .error () :=
  (string_validate_indexed_bound ⟨true, false⟩
      (String.mk (List.replicate 1501 'a'))).mpr
    ⟨rfl, rfl, by decide, by decide⟩

/-! Model equality (`Model.__eq__` in `model.py`). -/

/-- The class-level data `Model.__eq__` consults: the class name, the
names of the class and all its base classes (most specific first, the
method resolution order), and the declared property names
(`_properties`, own plus inherited). -/
structure MClass where
  cname : String
  mro : List String
  props : List String
deriving DecidableEq, Repr

/-- A model instance: its concrete class, its key and its `_data`
mapping.  Property values are abstracted to `Nat`; `getattr` resolves a
property to its stored value or `None` (defaults and repeated properties
are not exercised by the equality claim). -/
structure Ent where
  cls : MClass
  key : Key
  data : List (String × Nat)
deriving DecidableEq, Repr

/-- `getattr(e, name)` through the `Property` descriptor. -/
def getProp (e : Ent) (n : String) : Option Nat :=
  (e.data.find? fun p => decide (p.1 = n)).map (·.2)

/-- `isinstance(other, cls)`: `other`'s concrete class is `cls` or a
subclass of `cls`. -/
def isInstanceOf (other : Ent) (cls : MClass) : Bool :=
  decide (cls.cname ∈ other.cls.mro)

/-- Embedding of `Model.__eq__`: the `isinstance(other, type(self))`
check, then key equality, then the values of every property declared on
`self`'s class.  (The `self is other` shortcut is subsumed by value
equality.) -/
def modelEq (a b : Ent) : Bool :=
  isInstanceOf b a.cls
    && keyEq a.key b.key
    && a.cls.props.all fun n => decide (getProp a n = getProp b n)

/-- C8 (amended): `a == b` holds iff `b` is an instance of `a`'s concrete
class (same class or a subclass, via `isinstance`), the keys compare
equal, and the values of every property declared on `a`'s class agree;
the comparison is by value, never by object identity.  The frozen claim's
"same concrete model class" is false: across a polymorphic hierarchy an
entity of a strict subclass can compare equal (see the counterexample),
which also makes `==` asymmetric. -/
theorem model_eq_characterization (a b : Ent) :
    modelEq a b = true ↔
      (a.cls.cname ∈ b.cls.mro ∧ keyEq a.key b.key = true ∧
       ∀ n ∈ a.cls.props, getProp a n = getProp b n) := by
  simp [modelEq, isInstanceOf, List.all_eq_true, and_assoc]

/-- C8 counterexample: with `Cat` a subclass of `Mammal` in a polymorphic
hierarchy (shared kind `"Animal"`), a `Mammal` instance compares equal to
a `Cat` instance with the same key and property values, although the
concrete classes differ. -/
theorem model_eq_cex :
    modelEq
        ⟨⟨"Mammal", ["Mammal", "Animal"], ["x"]⟩,
         ⟨⟨"Animal", some (.intId 1), none⟩, []⟩, []⟩
        ⟨⟨"Cat", ["Cat", "Mammal", "Animal"], ["x"]⟩,
         ⟨⟨"Animal", some (.intId 1), none⟩, []⟩, []⟩ = true ∧
    (⟨"Mammal", ["Mammal", "Animal"], ["x"]⟩ : MClass) ≠
      ⟨"Cat", ["Cat", "Mammal", "Animal"], ["x"]⟩ :=
  ⟨by decide, by decide⟩

/-- C8 witness: the amended characterization instantiated on a `Mammal`
instance compared against a `Cat` instance with the same key and data. -/
theorem model_eq_characterization_witness :
    modelEq
        ⟨⟨"Mammal", ["Mammal", "Animal"], ["x"]⟩,
         ⟨⟨"Animal", some (.intId 1), none⟩, []⟩, [("x", 4)]⟩
        ⟨⟨"Cat", ["Cat", "Mammal", "Animal"], ["x"]⟩,
         ⟨⟨"Animal", some (.intId 1), none⟩, []⟩, [("x", 4)]⟩ = true :=
  (model_eq_characterization
      ⟨⟨"Mammal", ["Mammal", "Animal"], ["x"]⟩,
       ⟨⟨"Animal", some (.intId 1), none⟩, []⟩, [("x", 4)]⟩
      ⟨⟨"Cat", ["Cat", "Mammal", "Animal"], ["x"]⟩,
       ⟨⟨"Animal", some (.intId 1), none⟩, []⟩, [("x", 4)]⟩).mpr
    ⟨by decide, by decide, by decide⟩

/-! The `transactional` decorator (`transaction.py`).

An attempt either returns a value, raises `TransactionFailed` (the
conflict signal, carrying a tag standing for the exception object), or
raises some other exception.  `_DatastoreOuterTransaction.commit` wraps
every commit failure in `TransactionFailed`, so the commit stage either
succeeds or signals a conflict. -/

/-- An exception escaping the wrapped function body. -/
inductive Exc where
  | txnFailed (tag : Nat)
  | other (tag : Nat)
deriving DecidableEq, Repr

/-- Calls observed on the per-attempt transaction object (`n` is the
attempt number; each attempt gets a fresh transaction from
`adapter.transaction(propagation)`). -/
inductive TxnEvent where
  | beginE (n : Nat)
  | bodyE (n : Nat)
  | commitE (n : Nat)
  | rollbackE (n : Nat)
  | endE (n : Nat)
deriving DecidableEq, Repr

/-- The outcome of calling the decorated function. -/
inductive TxnOutcome where
  | value (v : Nat)
  | retriesExceeded (cause : Option Nat)
  | raised (e : Exc)
deriving DecidableEq, Repr

/-- The retry loop of `transactional(...)`: `fuel` is the number of
remaining loop iterations (`retries + 1 - attempts`), `n` the attempt
index, `cause` the last conflict caught.  Each iteration creates a fresh
transaction, begins it, runs the body, commits on success; a
`TransactionFailed` from body or commit is caught and the loop continues;
any other exception rolls back and re-raises; `end` runs on every path
(the `finally` block). -/
def runAttempts (body : Nat → Except Exc Nat) (commit : Nat → Option Nat) :
    Nat → Nat → Option Nat → TxnOutcome × List TxnEvent
  | 0, _, cause => (.retriesExceeded cause, [])
  | fuel + 1, n, _cause =>
    match body n with
    | .ok v =>
      match commit n with
      | none => (.value v, [.beginE n, .bodyE n, .commitE n, .endE n])
      | some t =>
        let r := runAttempts body commit fuel (n + 1) (some t)
        (r.1, [.beginE n, .bodyE n, .commitE n, .endE n] ++ r.2)
    | .error (.txnFailed t) =>
      let r := runAttempts body commit fuel (n + 1) (some t)
      (r.1, [.beginE n, .bodyE n, .endE n] ++ r.2)
    | .error (.other t) =>
      (.raised (.other t), [.beginE n, .bodyE n, .rollbackE n, .endE n])
  -- `cause` is only read when the fuel runs out, as in the Python loop.

/-- Calling a function decorated with `transactional(retries=retries)`:
the loop body runs for attempts `0, 1, ..., retries`. -/
def transactionalRun (body : Nat → Except Exc Nat) (commit : Nat → Option Nat)
    (retries : Nat) : TxnOutcome × List TxnEvent :=
  runAttempts body commit (retries + 1) 0 none

/-- Attempt `n` raises the conflict signal with tag `t`, either from the
body or from the commit. -/
def conflictAt (body : Nat → Except Exc Nat) (commit : Nat → Option Nat)
    (n t : Nat) : Prop :=
  body n = .error (.txnFailed t) ∨ (∃ v, body n = .ok v ∧ commit n = some t)

/-- The transaction-object calls of one conflicted attempt. -/
def conflictTrace (body : Nat → Except Exc Nat) (n : Nat) : List TxnEvent :=
  match body n with
  | .error _ => [.beginE n, .bodyE n, .endE n]
  | .ok _ => [.beginE n, .bodyE n, .commitE n, .endE n]

theorem runAttempts_conflicts (body : Nat → Except Exc Nat)
    (commit : Nat → Option Nat) (t : Nat → Nat) :
    ∀ fuel n0 cause, (∀ j, j < fuel → conflictAt body commit (n0 + j) (t (n0 + j))) →
      runAttempts body commit fuel n0 cause =
        ((if fuel = 0 then TxnOutcome.retriesExceeded cause
          else .retriesExceeded (some (t (n0 + fuel - 1)))),
         ((List.range fuel).map (n0 + ·)).flatMap (conflictTrace body)) := by
  intro fuel
  induction fuel with
  | zero => intro n0 cause _; rfl
  | succ fuel ih =>
      intro n0 cause h
      have hshift : ∀ j, j < fuel → conflictAt body commit (n0 + 1 + j) (t (n0 + 1 + j)) := by
        intro j hj
        have := h (j + 1) (by omega)
        simpa [Nat.add_assoc, Nat.add_comm 1 j] using this
      have hrange : ((List.range (fuel + 1)).map (n0 + ·)).flatMap (conflictTrace body) =
          conflictTrace body n0 ++
            ((List.range fuel).map (n0 + 1 + ·)).flatMap (conflictTrace body) := by
        rw [List.range_succ_eq_map]
        simp only [List.map_cons, List.map_map, List.flatMap_cons, Nat.add_zero]
        have : ((n0 + ·) ∘ Nat.succ) = (n0 + 1 + ·) := by
          funext j; simp [Function.comp]; omega
        rw [this]
      have hlast : n0 + 1 + fuel - 1 = n0 + (fuel + 1) - 1 := by omega
      rcases h 0 (by omega) with hb | ⟨v, hb, hc⟩
      · rw [Nat.add_zero] at hb
        show runAttempts body commit (fuel + 1) n0 cause = _
        rw [hrange]
        simp only [runAttempts, hb, ih (n0 + 1) (some (t n0)) hshift]
        cases fuel with
        | zero => simp [conflictTrace, hb]
        | succ m =>
            simp only [Nat.succ_ne_zero, if_false, reduceIte]
            rw [hlast]
            simp [conflictTrace, hb]
      · rw [Nat.add_zero] at hb hc
        show runAttempts body commit (fuel + 1) n0 cause = _
        rw [hrange]
        simp only [runAttempts, hb, hc, ih (n0 + 1) (some (t n0)) hshift]
        cases fuel with
        | zero => simp [conflictTrace, hb]
        | succ m =>
            simp only [Nat.succ_ne_zero, if_false, reduceIte]
            rw [hlast]
            simp [conflictTrace, hb]

theorem count_flatMap_range (N n : Nat) (ev : Nat → TxnEvent)
    (tr : Nat → List TxnEvent)
    (h : ∀ m m', ((tr m').count (ev m)) = if m' = m then 1 else 0) :
    ((List.range N).flatMap tr).count (ev n) = if n < N then 1 else 0 := by
  induction N with
  | zero => simp
  | succ N ih =>
      rw [List.range_succ, List.flatMap_append, List.count_append, ih]
      simp only [List.flatMap_cons, List.flatMap_nil, List.append_nil, h n N]
      by_cases h1 : n < N <;> by_cases h2 : N = n <;> by_cases h3 : n < N + 1 <;>
        simp [h1, h2, h3] <;> omega

theorem count_conflictTrace (body : Nat → Except Exc Nat) :
    ∀ m m', ((conflictTrace body m').count (.bodyE m) = if m' = m then 1 else 0)
      ∧ ((conflictTrace body m').count (.beginE m) = if m' = m then 1 else 0)
      ∧ ((conflictTrace body m').count (.endE m) = if m' = m then 1 else 0) := by
  intro m m'
  refine ⟨?_, ?_, ?_⟩ <;>
  · by_cases he : m' = m
    · subst he
      cases hb : body m' <;> simp [conflictTrace, hb, List.count_cons]
    · cases hb : body m' <;> simp [conflictTrace, hb, List.count_cons, he]

/-- C2: with `retries = N` and every attempt `0..N` raising the conflict
signal (`TransactionFailed`, from the body or from the commit), the
decorated call begins a fresh transaction and runs the body exactly `N+1`
times, ends every one of those transactions, and raises
`RetriesExceeded` carrying the conflict of the last attempt. -/
theorem transactional_retries_exhausted (body : Nat → Except Exc Nat)
    (commit : Nat → Option Nat) (retries : Nat) (t : Nat → Nat)
    (h : ∀ n, n ≤ retries → conflictAt body commit n (t n)) :
    transactionalRun body commit retries =
      (.retriesExceeded (some (t retries)),
       (List.range (retries + 1)).flatMap (conflictTrace body)) ∧
    (∀ n, ((List.range (retries + 1)).flatMap (conflictTrace body)).count (.bodyE n) =
        if n ≤ retries then 1 else 0) ∧
    (∀ n, ((List.range (retries + 1)).flatMap (conflictTrace body)).count (.beginE n) =
        if n ≤ retries then 1 else 0) ∧
    (∀ n, ((List.range (retries + 1)).flatMap (conflictTrace body)).count (.endE n) =
        if n ≤ retries then 1 else 0) := by
  have hmain := runAttempts_conflicts body commit t (retries + 1) 0 none
    (by intro j hj; simpa using h j (by omega))
  have hid : ((List.range (retries + 1)).map (0 + ·)) = List.range (retries + 1) := by
    simp
  rw [hid] at hmain
  refine ⟨?_, ?_, ?_, ?_⟩
  · rw [transactionalRun, hmain]
    simp
  · intro n
    rw [count_flatMap_range (retries + 1) n TxnEvent.bodyE _
      (fun m m' => (count_conflictTrace body m m').1)]
    by_cases hn : n ≤ retries <;> by_cases hn2 : n < retries + 1 <;>
      simp [hn, hn2] <;> omega
  · intro n
    rw [count_flatMap_range (retries + 1) n TxnEvent.beginE _
      (fun m m' => (count_conflictTrace body m m').2.1)]
    by_cases hn : n ≤ retries <;> by_cases hn2 : n < retries + 1 <;>
      simp [hn, hn2] <;> omega
  · intro n
    rw [count_flatMap_range (retries + 1) n TxnEvent.endE _
      (fun m m' => (count_conflictTrace body m m').2.2)]
    by_cases hn : n ≤ retries <;> by_cases hn2 : n < retries + 1 <;>
      simp [hn, hn2] <;> omega

/-- C2 witness: `retries = 1` with every attempt conflicting (tag 7)
raises `RetriesExceeded` with cause 7 after two begun-and-ended
attempts. -/
theorem transactional_retries_exhausted_witness :
    transactionalRun (fun _ => .error (.txnFailed 7)) (fun _ => none) 1 =
      (.retriesExceeded (some 7),
       [.beginE 0, .bodyE 0, .endE 0, .beginE 1, .bodyE 1, .endE 1]) := by
  have h := (transactional_retries_exhausted (fun _ => .error (.txnFailed 7))
    (fun _ => none) 1 (fun _ => 7) (fun n _ => Or.inl rfl)).1
  rw [h]
  decide

/-- C3: a non-conflict exception from the body on the first attempt rolls
the transaction back, still ends it, performs no further attempt, and the
very same exception propagates. -/
theorem transactional_non_conflict (body : Nat → Except Exc Nat)
    (commit : Nat → Option Nat) (retries tag : Nat)
    (h : body 0 = .error (.other tag)) :
    transactionalRun body commit retries =
      (.raised (.other tag), [.beginE 0, .bodyE 0, .rollbackE 0, .endE 0]) := by
  show runAttempts body commit (retries + 1) 0 none = _
  simp [runAttempts, h]

/-- C3 witness: a body raising a non-conflict exception (tag 9) with
`retries = 3`. -/
theorem transactional_non_conflict_witness :
    transactionalRun (fun _ => .error (.other 9)) (fun _ => none) 3 =
      (.raised (.other 9), [.beginE 0, .bodyE 0, .rollbackE 0, .endE 0]) :=
  transactional_non_conflict (fun _ => .error (.other 9)) (fun _ => none) 3 9 rfl

/-! Transaction propagation (`datastore_adapter.py`, `memcache_adapter.py`).

`DsEvent`s are the calls reaching the underlying Google datastore
transaction objects; an id stands for one `client.transaction()` object.
`_DatastoreOuterTransaction` drives the underlying transaction;
`_DatastoreInnerTransaction.begin/commit/rollback` only log, so they
leave the underlying transaction untouched; its `end` removes itself from
the adapter's per-thread stack.  The stack appends on creation and
`current_transaction` is the last element. -/

/-- The propagation modes of `Transaction.Propagation`. -/
inductive Propagation where
  | nested
  | independent
deriving DecidableEq, Repr

/-- Calls on the underlying datastore transactions. -/
inductive DsEvent where
  | dsBegin (id : Nat)
  | dsCommit (id : Nat)
  | dsRollback (id : Nat)
deriving DecidableEq, Repr

/-- A transaction object of the `DatastoreAdapter`: an outer transaction
owning underlying transaction `id`, or an inner transaction holding its
parent (`_DatastoreInnerTransaction(parent)`). -/
inductive DTxn where
  | outerT (id : Nat)
  | innerT (id : Nat) (parent : DTxn)
deriving DecidableEq, Repr

/-- The identity of a transaction object (Python `list.remove` removes by
object identity here, since transactions define no `__eq__`). -/
def DTxn.tid : DTxn → Nat
  | .outerT i => i
  | .innerT i _ => i

/-- The per-thread state of a `DatastoreAdapter`: the transaction stack,
a supply of fresh object ids, and the log of calls made to underlying
datastore transactions. -/
structure DsState where
  stack : List DTxn
  nextId : Nat
  events : List DsEvent
deriving DecidableEq, Repr

/-- Push a brand-new outer transaction (`_DatastoreOuterTransaction`). -/
def dsNewOuter (s : DsState) : DTxn × DsState :=
  (.outerT s.nextId, ⟨s.stack ++ [.outerT s.nextId], s.nextId + 1, s.events⟩)

/-- `DatastoreAdapter.transaction(propagation)`. -/
def dsTransaction (p : Propagation) (s : DsState) : DTxn × DsState :=
  match p with
  | .independent => dsNewOuter s
  | .nested =>
    match s.stack.getLast? with
    | some top =>
      (.innerT s.nextId top, ⟨s.stack ++ [.innerT s.nextId top], s.nextId + 1, s.events⟩)
    | none => dsNewOuter s

/-- `begin`: the outer transaction begins the underlying transaction; the
inner transaction only logs. -/
def dsBeginT (t : DTxn) (s : DsState) : DsState :=
  match t with
  | .outerT i => {s with events := s.events ++ [.dsBegin i]}
  | .innerT _ _ => s

/-- `commit`: only the outer transaction commits the underlying
transaction. -/
def dsCommitT (t : DTxn) (s : DsState) : DsState :=
  match t with
  | .outerT i => {s with events := s.events ++ [.dsCommit i]}
  | .innerT _ _ => s

/-- `rollback`: only the outer transaction rolls the underlying
transaction back. -/
def dsRollbackT (t : DTxn) (s : DsState) : DsState :=
  match t with
  | .outerT i => {s with events := s.events ++ [.dsRollback i]}
  | .innerT _ _ => s

/-- `end`: both kinds remove themselves from the adapter's stack. -/
def dsEndT (t : DTxn) (s : DsState) : DsState :=
  {s with stack := s.stack.eraseP fun x => decide (x.tid = t.tid)}

/-- Stack ids are below the fresh-id supply. -/
def dsWf (s : DsState) : Prop :=
  ∀ t ∈ s.stack, t.tid < s.nextId

/-- A transaction object of the `MemcacheAdapter`.  The outer variant
carries the batch of keys to invalidate at commit time; both carry the
transaction obtained from the wrapped datastore adapter.
(`_MemcacheInnerTransaction` delegates unknown attributes, in particular
`_push_keys`, to its parent.) -/
inductive MTxn where
  | mouter (mid : Nat) (dsT : DTxn) (batch : List Key)
  | minner (mid : Nat) (parentMid : Nat) (dsT : DTxn)
deriving DecidableEq, Repr

def MTxn.mid : MTxn → Nat
  | .mouter i _ _ => i
  | .minner i _ _ => i

def MTxn.dsT : MTxn → DTxn
  | .mouter _ t _ => t
  | .minner _ _ t => t

/-- The per-thread state of a `MemcacheAdapter`: its own transaction
stack plus the state of the wrapped datastore adapter. -/
structure McState where
  stack : List MTxn
  nextId : Nat
  ds : DsState
deriving DecidableEq, Repr

/-- `MemcacheAdapter.transaction(propagation)`: first obtains a
transaction from the wrapped adapter, then wraps it. -/
def mcTransaction (p : Propagation) (s : McState) : MTxn × McState :=
  let r := dsTransaction p s.ds
  match p with
  | .independent =>
    (.mouter s.nextId r.1 [], ⟨s.stack ++ [.mouter s.nextId r.1 []], s.nextId + 1, r.2⟩)
  | .nested =>
    match s.stack.getLast? with
    | some top =>
      (.minner s.nextId top.mid r.1,
       ⟨s.stack ++ [.minner s.nextId top.mid r.1], s.nextId + 1, r.2⟩)
    | none =>
      (.mouter s.nextId r.1 [], ⟨s.stack ++ [.mouter s.nextId r.1 []], s.nextId + 1, r.2⟩)

/-- `begin` of either memcache transaction delegates to the wrapped
datastore transaction (`self.begin = ds_transaction.begin`). -/
def mcBeginT (t : MTxn) (s : McState) : McState :=
  {s with ds := dsBeginT t.dsT s.ds}

/-- `commit`: the inner memcache transaction commits only its wrapped
datastore transaction; the outer one additionally busts its key batch
(cache effects are tracked by the cache-operation model below). -/
def mcCommitT (t : MTxn) (s : McState) : McState :=
  {s with ds := dsCommitT t.dsT s.ds}

def mcRollbackT (t : MTxn) (s : McState) : McState :=
  {s with ds := dsRollbackT t.dsT s.ds}

/-- `end`: end the wrapped datastore transaction and remove self from the
memcache adapter's stack. -/
def mcEndT (t : MTxn) (s : McState) : McState :=
  ⟨s.stack.eraseP (fun x => decide (x.mid = t.mid)), s.nextId, dsEndT t.dsT s.ds⟩

/-- Well-formed memcache adapter state: fresh ids on both layers, and the
two stacks are pushed and popped together so one is empty iff the other
is. -/
def mcWf (s : McState) : Prop :=
  (∀ t ∈ s.stack, t.mid < s.nextId) ∧ dsWf s.ds ∧ (s.stack = [] ↔ s.ds.stack = [])

theorem eraseP_append_fresh {α : Type} (l : List α) (x : α) (p : α → Bool)
    (hl : ∀ y ∈ l, p y = false) (hx : p x = true) :
    (l ++ [x]).eraseP p = l := by
  rw [List.eraseP_append_right [x] (by intro b hb; simp [hl b hb])]
  simp [List.eraseP_cons, hx]

/-- C4: `adapter.transaction(propagation)` for both adapters.  With
`Nested` propagation and a non-empty per-thread stack the returned
transaction is an inner transaction over the enclosing transaction,
appended to the stack; its `begin`, `commit` and `rollback` never touch
the underlying datastore transaction (only an outer transaction's
`commit` finalizes it, by emitting the underlying commit), and its own
`end` removes exactly it, restoring the stack.  With `Nested` on an empty
stack, and with `Independent` always, a brand-new outer transaction is
pushed instead. -/
theorem transaction_propagation (s : DsState) (m : McState)
    (hs : dsWf s) (hm : mcWf m) :
    (s.stack ≠ [] →
      ∃ top, s.stack.getLast? = some top ∧
        (dsTransaction .nested s).1 = .innerT s.nextId top ∧
        (dsTransaction .nested s).2.stack = s.stack ++ [.innerT s.nextId top] ∧
        (∀ u : DsState,
          (dsBeginT (.innerT s.nextId top) u).events = u.events ∧
          (dsCommitT (.innerT s.nextId top) u).events = u.events ∧
          (dsRollbackT (.innerT s.nextId top) u).events = u.events) ∧
        (dsEndT (.innerT s.nextId top) (dsTransaction .nested s).2).stack = s.stack) ∧
    (∀ (i : Nat) (u : DsState),
      (dsCommitT (.outerT i) u).events = u.events ++ [.dsCommit i]) ∧
    (s.stack = [] →
      (dsTransaction .nested s).1 = .outerT s.nextId ∧
      (dsTransaction .nested s).2.stack = s.stack ++ [.outerT s.nextId]) ∧
    ((dsTransaction .independent s).1 = .outerT s.nextId ∧
      DTxn.outerT s.nextId ∉ s.stack ∧
      (dsTransaction .independent s).2.stack = s.stack ++ [.outerT s.nextId]) ∧
    (m.stack ≠ [] →
      ∃ top dsTop, m.stack.getLast? = some top ∧ m.ds.stack.getLast? = some dsTop ∧
        (mcTransaction .nested m).1 = .minner m.nextId top.mid (.innerT m.ds.nextId dsTop) ∧
        (mcTransaction .nested m).2.stack = m.stack ++ [(mcTransaction .nested m).1] ∧
        (∀ u : McState,
          (mcBeginT (mcTransaction .nested m).1 u).ds.events = u.ds.events ∧
          (mcCommitT (mcTransaction .nested m).1 u).ds.events = u.ds.events ∧
          (mcRollbackT (mcTransaction .nested m).1 u).ds.events = u.ds.events) ∧
        (mcEndT (mcTransaction .nested m).1 (mcTransaction .nested m).2).stack = m.stack ∧
        (mcEndT (mcTransaction .nested m).1 (mcTransaction .nested m).2).ds.stack = m.ds.stack) ∧
    (m.stack = [] →
      (mcTransaction .nested m).1 = .mouter m.nextId (.outerT m.ds.nextId) [] ∧
      (mcTransaction .nested m).2.stack = m.stack ++ [.mouter m.nextId (.outerT m.ds.nextId) []]) ∧
    ((mcTransaction .independent m).1 = .mouter m.nextId (.outerT m.ds.nextId) [] ∧
      (∀ b, MTxn.mouter m.nextId (.outerT m.ds.nextId) b ∉ m.stack) ∧
      (mcTransaction .independent m).2.stack =
        m.stack ++ [.mouter m.nextId (.outerT m.ds.nextId) []]) := by
  obtain ⟨hm1, hm2, hm3⟩ := hm
  refine ⟨?_, fun i u => rfl, ?_, ?_, ?_, ?_, ?_⟩
  · intro hne
    match hl : s.stack.getLast? with
    | none => exact absurd (List.getLast?_eq_none_iff.mp hl) hne
    | some top =>
        refine ⟨top, rfl, ?_, ?_, fun u => ⟨rfl, rfl, rfl⟩, ?_⟩
        · simp [dsTransaction, hl]
        · simp [dsTransaction, hl]
        · simp only [dsTransaction, hl, dsEndT]
          exact eraseP_append_fresh _ _ _
            (fun y hy => decide_eq_false (fun hEq =>
              absurd hEq (Nat.ne_of_lt (hs y hy))))
            (decide_eq_true rfl)
  · intro hnil
    simp [dsTransaction, hnil, dsNewOuter]
  · refine ⟨rfl, ?_, rfl⟩
    intro hmem
    exact absurd rfl (Nat.ne_of_lt (hs _ hmem))
  · intro hne
    have hdne : m.ds.stack ≠ [] := fun h => hne (hm3.mpr h)
    match hl : m.stack.getLast? with
    | none => exact absurd (List.getLast?_eq_none_iff.mp hl) hne
    | some top =>
        match hdl : m.ds.stack.getLast? with
        | none => exact absurd (List.getLast?_eq_none_iff.mp hdl) hdne
        | some dsTop =>
            have ht : (mcTransaction .nested m).1 =
                .minner m.nextId top.mid (.innerT m.ds.nextId dsTop) := by
              simp [mcTransaction, dsTransaction, hl, hdl]
            refine ⟨top, dsTop, rfl, rfl, ht, ?_, ?_, ?_, ?_⟩
            · simp [mcTransaction, dsTransaction, hl, hdl]
            · intro u
              rw [ht]
              exact ⟨rfl, rfl, rfl⟩
            · rw [ht]
              have hst : (mcTransaction .nested m).2.stack =
                  m.stack ++ [MTxn.minner m.nextId top.mid (.innerT m.ds.nextId dsTop)] := by
                simp [mcTransaction, dsTransaction, hl, hdl]
              show ((mcTransaction .nested m).2.stack.eraseP _) = m.stack
              rw [hst]
              exact eraseP_append_fresh _ _ _
                (fun y hy => decide_eq_false (fun hEq =>
                  absurd hEq (Nat.ne_of_lt (hm1 y hy))))
                (decide_eq_true rfl)
            · rw [ht]
              have hds : (mcTransaction .nested m).2.ds.stack =
                  m.ds.stack ++ [DTxn.innerT m.ds.nextId dsTop] := by
                simp [mcTransaction, dsTransaction, hl, hdl]
              show ((mcTransaction .nested m).2.ds.stack.eraseP _) = m.ds.stack
              rw [hds]
              exact eraseP_append_fresh _ _ _
                (fun y hy => decide_eq_false (fun hEq =>
                  absurd hEq (Nat.ne_of_lt (hm2 y hy))))
                (decide_eq_true rfl)
  · intro hnil
    have hdnil : m.ds.stack = [] := hm3.mp hnil
    constructor <;>
      simp [mcTransaction, dsTransaction, hnil, hdnil, dsNewOuter]
  · refine ⟨rfl, ?_, rfl⟩
    intro b hmem
    exact absurd rfl (Nat.ne_of_lt (hm1 _ hmem))

/-- C4 witness: the propagation facts applied to a concrete state with
one open transaction on each adapter; the extracted fact is that the
outer transaction's commit emits the underlying commit. -/
theorem transaction_propagation_witness :
    (dsWf ⟨[.outerT 0], 1, []⟩ ∧
      mcWf ⟨[.mouter 0 (.outerT 0) []], 1, ⟨[.outerT 0], 1, []⟩⟩) ∧
    (dsCommitT (.outerT 5) ⟨[], 6, []⟩).events = [.dsCommit 5] := by
  have hwds : dsWf ⟨[.outerT 0], 1, []⟩ := by
    intro t ht; fin_cases ht; decide
  have hwmc : mcWf ⟨[.mouter 0 (.outerT 0) []], 1, ⟨[.outerT 0], 1, []⟩⟩ := by
    refine ⟨?_, ?_, by simp⟩
    · intro t ht; fin_cases ht; decide
    · intro t ht; fin_cases ht; decide
  refine ⟨⟨hwds, hwmc⟩, ?_⟩
  have h := (transaction_propagation ⟨[.outerT 0], 1, []⟩
    ⟨[.mouter 0 (.outerT 0) []], 1, ⟨[.outerT 0], 1, []⟩⟩ hwds hwmc).2.1 5 ⟨[], 6, []⟩
  simpa using h

/-! Model-level batch operations (`get_multi` / `delete_multi` in
`model.py`).  The entity payload type is abstract (`Data`); the backing
adapter is a parameter.  Each operation also returns the list of
invocations made on the backing adapter, so "the adapter was never
called" is expressible. -/

/-- The two `RuntimeError` messages of the pre-flight loop. -/
inductive RtMsg where
  | keyNotFull
  | kindUnknown
deriving DecidableEq, Repr

/-- An error escaping `get_multi` / `delete_multi`: a `RuntimeError`
raised by the loop itself, or an exception (tag) raised by a per-key
pre-hook. -/
inductive BErr where
  | runtime (m : RtMsg)
  | hookExc (tag : Nat)
deriving DecidableEq, Repr

/-- The ambient state the batch operations read: the registered model
kinds (`_known_models`), the per-kind pre-hooks (a `some` tag means the
hook raises; the default hooks are `fun _ => none`), and the backing
store contents keyed by datastore key. -/
structure Env (Data : Type) where
  registered : List String
  preGetHook : Key → Option Nat
  preDeleteHook : Key → Option Nat
  store : List (Key × Data)

/-- Look an entity up by key; datastore keys compare like `Key.__eq__`. -/
def lookupStore {Data : Type} (store : List (Key × Data)) (k : Key) : Option Data :=
  (store.find? fun p => keyEq p.1 k).map (·.2)

/-- The pre-flight loop shared by `get_multi` and `delete_multi`: for
each key in order, raise `RuntimeError` if the key is partial, raise
`RuntimeError` if no model is registered for its kind
(`lookup_model_by_kind`), then run the pre-hook, propagating anything it
raises. -/
def checkKeys (registered : List String) (hook : Key → Option Nat) :
    List Key → Except BErr Unit
  | [] => .ok ()
  | k :: ks =>
    if k.incomplete then .error (.runtime .keyNotFull)
    else if decide (k.kind ∈ registered) = false then .error (.runtime .kindUnknown)
    else
      match hook k with
      | some t => .error (.hookExc t)
      | none => checkKeys registered hook ks

/-- `get_multi(keys)`: empty input short-circuits; the pre-flight loop
runs first; then one `adapter.get_multi(keys)` call; results are zipped
with the keys and loaded (`model._load(key, data)` is `(key, data)`
here); missing entries stay `None`. -/
def get_multi {Data : Type} (env : Env Data)
    (adapterGet : List Key → List (Option Data)) (keys : List Key) :
    Except BErr (List (Option (Key × Data))) × List (List Key) :=
  if keys.isEmpty then (.ok [], [])
  else
    match checkKeys env.registered env.preGetHook keys with
    | .error e => (.error e, [])
    | .ok () =>
      (.ok ((keys.zip (adapterGet keys)).map fun kd => kd.2.map fun d => (kd.1, d)),
       [keys])

/-- `delete_multi(keys)`: empty input short-circuits; the pre-flight loop
runs first; then one `adapter.delete_multi(keys)` call. -/
def delete_multi {Data : Type} (env : Env Data) (keys : List Key) :
    Except BErr Unit × List (List Key) :=
  if keys.isEmpty then (.ok (), [])
  else
    match checkKeys env.registered env.preDeleteHook keys with
    | .error e => (.error e, [])
    | .ok () => (.ok (), [keys])

theorem checkKeys_error_of_incomplete (registered : List String)
    (hook : Key → Option Nat) :
    ∀ keys : List Key, (∃ k ∈ keys, k.incomplete = true) →
      ∃ e, checkKeys registered hook keys = .error e := by
  intro keys
  induction keys with
  | nil => rintro ⟨k, hk, _⟩; cases hk
  | cons k ks ih =>
      rintro ⟨k', hk', hp⟩
      by_cases h1 : k.incomplete
      · exact ⟨.runtime .keyNotFull, by simp [checkKeys, h1]⟩
      · by_cases h2 : k.kind ∈ registered
        · rw [List.mem_cons] at hk'
          rcases hk' with hk' | hk'
          · subst hk'; exact absurd hp h1
          · match hh : hook k with
            | some t => exact ⟨.hookExc t, by simp [checkKeys, h1, h2, hh]⟩
            | none =>
                obtain ⟨e, he⟩ := ih ⟨k', hk', hp⟩
                exact ⟨e, by simp [checkKeys, h1, h2, hh, he]⟩
        · exact ⟨.runtime .kindUnknown, by simp [checkKeys, h1, h2]⟩

theorem checkKeys_runtime_of_quiet_hooks (registered : List String)
    (hook : Key → Option Nat) :
    ∀ keys : List Key, (∀ k ∈ keys, hook k = none) →
      ∀ e, checkKeys registered hook keys = .error e → ∃ msg, e = .runtime msg := by
  intro keys
  induction keys with
  | nil => intro _ e he; cases he
  | cons k ks ih =>
      intro hq e he
      by_cases h1 : k.incomplete
      · simp [checkKeys, h1] at he
        exact ⟨.keyNotFull, he.symm⟩
      · by_cases h2 : k.kind ∈ registered
        · rw [checkKeys, if_neg h1, if_neg (by simp [h2]), hq k (by simp)] at he
          exact ih (fun x hx => hq x (by simp [hx])) e he
        · simp [checkKeys, h1, h2] at he
          exact ⟨.kindUnknown, he.symm⟩

theorem checkKeys_first_hook (registered : List String) (hook : Key → Option Nat) :
    ∀ (ks1 : List Key) (k : Key) (ks2 : List Key) (t : Nat),
      (∀ x ∈ ks1, x.incomplete = false ∧ x.kind ∈ registered ∧ hook x = none) →
      k.incomplete = false → k.kind ∈ registered → hook k = some t →
      checkKeys registered hook (ks1 ++ k :: ks2) = .error (.hookExc t) := by
  intro ks1
  induction ks1 with
  | nil =>
      intro k ks2 t _ h1 h2 h3
      simp [checkKeys, h1, h2, h3]
  | cons x ks ih =>
      intro k ks2 t hpass h1 h2 h3
      obtain ⟨hx1, hx2, hx3⟩ := hpass x (by simp)
      rw [List.cons_append, checkKeys, if_neg (by simp [hx1]),
        if_neg (by simp [hx2]), hx3]
      exact ih k ks2 t (fun y hy => hpass y (by simp [hy])) h1 h2 h3

/-- C9: for `get_multi` and `delete_multi`, a partial key anywhere in the
batch aborts the call (with a `RuntimeError` when no hook interferes),
and a pre-hook exception on the first failing key propagates as-is; in
every error case the invocation list is empty, i.e. the backing adapter's
`get_multi`/`delete_multi` was never called and the store is untouched. -/
theorem batch_aborts_before_adapter {Data : Type} (env : Env Data)
    (adapterGet : List Key → List (Option Data)) (keys : List Key) :
    ((∃ k ∈ keys, k.incomplete = true) →
      (∃ e, get_multi env adapterGet keys = (.error e, []) ∧
        ((∀ k ∈ keys, env.preGetHook k = none) → ∃ msg, e = .runtime msg)) ∧
      (∃ e, delete_multi env keys = (.error e, []) ∧
        ((∀ k ∈ keys, env.preDeleteHook k = none) → ∃ msg, e = .runtime msg))) ∧
    (∀ (ks1 : List Key) (k : Key) (ks2 : List Key) (t : Nat),
      keys = ks1 ++ k :: ks2 →
      (∀ x ∈ ks1, x.incomplete = false ∧ x.kind ∈ env.registered ∧
        env.preGetHook x = none) →
      k.incomplete = false → k.kind ∈ env.registered → env.preGetHook k = some t →
      get_multi env adapterGet keys = (.error (.hookExc t), [])) ∧
    (∀ (ks1 : List Key) (k : Key) (ks2 : List Key) (t : Nat),
      keys = ks1 ++ k :: ks2 →
      (∀ x ∈ ks1, x.incomplete = false ∧ x.kind ∈ env.registered ∧
        env.preDeleteHook x = none) →
      k.incomplete = false → k.kind ∈ env.registered →
      env.preDeleteHook k = some t →
      delete_multi env keys = (.error (.hookExc t), [])) := by
  refine ⟨?_, ?_, ?_⟩
  · intro hpart
    have hne : keys.isEmpty = false := by
      obtain ⟨k, hk, _⟩ := hpart
      cases keys with
      | nil => cases hk
      | cons a l => rfl
    constructor
    · obtain ⟨e, he⟩ := checkKeys_error_of_incomplete env.registered env.preGetHook keys hpart
      refine ⟨e, ?_, fun hq => checkKeys_runtime_of_quiet_hooks _ _ keys hq e he⟩
      simp [get_multi, hne, he]
    · obtain ⟨e, he⟩ := checkKeys_error_of_incomplete env.registered env.preDeleteHook keys hpart
      refine ⟨e, ?_, fun hq => checkKeys_runtime_of_quiet_hooks _ _ keys hq e he⟩
      simp [delete_multi, hne, he]
  · intro ks1 k ks2 t hk hpass h1 h2 h3
    have hne : keys.isEmpty = false := by
      subst hk; cases ks1 <;> rfl
    have hchk := checkKeys_first_hook env.registered env.preGetHook ks1 k ks2 t
      hpass h1 h2 h3
    rw [← hk] at hchk
    simp [get_multi, hne, hchk]
  · intro ks1 k ks2 t hk hpass h1 h2 h3
    have hne : keys.isEmpty = false := by
      subst hk; cases ks1 <;> rfl
    have hchk := checkKeys_first_hook env.registered env.preDeleteHook ks1 k ks2 t
      hpass h1 h2 h3
    rw [← hk] at hchk
    simp [delete_multi, hne, hchk]

/-- The environment used by the C9 witness: kind `"A"` registered, quiet
hooks, empty store. -/
def envQuiet : Env Nat := ⟨["A"], fun _ => none, fun _ => none, []⟩

/-- A C9 witness environment whose pre-get hook always raises tag 5. -/
def envHook5 : Env Nat := ⟨["A"], fun _ => some 5, fun _ => none, []⟩

/-- C9 witness: a batch holding only a partial key aborts both operations
with a `RuntimeError` and no adapter call; a batch whose (first) key's
pre-get hook raises tag 5 aborts with that exception and no adapter
call. -/
theorem batch_aborts_before_adapter_witness :
    ((∃ e, get_multi envQuiet (fun ks => ks.map fun _ => none)
          [⟨⟨"A", none, none⟩, []⟩] = (.error e, []) ∧
        ((∀ k ∈ [(⟨⟨"A", none, none⟩, []⟩ : Key)], envQuiet.preGetHook k = none) →
          ∃ msg, e = .runtime msg)) ∧
     (∃ e, delete_multi envQuiet [⟨⟨"A", none, none⟩, []⟩] = (.error e, []) ∧
        ((∀ k ∈ [(⟨⟨"A", none, none⟩, []⟩ : Key)], envQuiet.preDeleteHook k = none) →
          ∃ msg, e = .runtime msg))) ∧
    get_multi envHook5 (fun ks => ks.map fun _ => none)
        [⟨⟨"A", some (.intId 1), none⟩, []⟩] = (.error (.hookExc 5), []) := by
  constructor
  · exact (batch_aborts_before_adapter envQuiet (fun ks => ks.map fun _ => none)
      [⟨⟨"A", none, none⟩, []⟩]).1 ⟨⟨⟨"A", none, none⟩, []⟩, by simp, by decide⟩
  · exact (batch_aborts_before_adapter envHook5 (fun ks => ks.map fun _ => none)
      [⟨⟨"A", some (.intId 1), none⟩, []⟩]).2.1 [] ⟨⟨"A", some (.intId 1), none⟩, []⟩
      [] 5 rfl (by simp) (by decide) (by decide) rfl

/-! The `MemcacheAdapter` data operations (`memcache_adapter.py`).

The memcached table is modelled as a function from datastore keys to
cached values (`_convert_key_to_memcache` hashes the key's string form,
which determines the key structurally, so the table is keyed by `Key`).
A cached value is either a lock placeholder (a value starting with
`_lock_prefix`) or entity data.  Cache operations are logged so frame
claims ("no cache operation at all") are expressible. -/

/-- A memcached value for one key. -/
inductive CacheVal (Data : Type) where
  | lockVal
  | entry (d : Data)
deriving DecidableEq, Repr

/-- The memcached table. -/
def Cache (Data : Type) : Type := Key → Option (CacheVal Data)

/-- Operations performed against the memcached client, at per-key
granularity. -/
inductive CacheOp where
  | lookupMulti (ks : List Key)
  | casSet (k : Key)
  | lockSet (k : Key)
  | del (k : Key)
deriving DecidableEq, Repr

/-- The key list of the dict `{memcache_key: key for key in keys}`:
first occurrences, in order (the hash is injective on keys). -/
def dictKeys : List Key → List Key
  | [] => []
  | k :: ks => k :: (dictKeys ks).filter fun x => decide (x ≠ k)

/-- `keys.index(k)` under `Key.__eq__`. -/
def idxOfK (keys : List Key) (k : Key) : Nat :=
  keys.findIdx fun x => keyEq x k

/-- `_cache(key, data)`, collapsed to its sequential behaviour: abandon
the write if another writer's lock placeholder is present, otherwise the
compare-and-swap (adding our own lock first when the slot is empty)
stores the entry. -/
def mcCacheStore {Data : Type} (cache : Cache Data) (k : Key) (d : Data) :
    Cache Data × List CacheOp :=
  match cache k with
  | some .lockVal => (cache, [])
  | _ => (fun x => if x = k then some (.entry d) else cache x, [.casSet k])

/-- The first loop of `MemcacheAdapter.get_multi`: for each distinct
memcache key, a cached non-lock value fills the `found` slot at
`keys.index(anom_key)`; an absent or locked value goes to `missing`. -/
def mcPass1 {Data : Type} (cache : Cache Data) (keys : List Key) :
    List Key → List (Option Data) → List Key → List (Option Data) × List Key
  | [], found, missing => (found, missing)
  | k :: rest, found, missing =>
    match cache k with
    | some (.entry d) => mcPass1 cache keys rest (found.set (idxOfK keys k) (some d)) missing
    | _ => mcPass1 cache keys rest found (missing ++ [k])

/-- The second loop of `MemcacheAdapter.get_multi`: each missing key's
datastore result (possibly `None`) fills its `found` slot, and non-`None`
entities are written back to the cache. -/
def mcPass2 {Data : Type} (keys : List Key) :
    List (Key × Option Data) → List (Option Data) → Cache Data → List CacheOp →
    List (Option Data) × Cache Data × List CacheOp
  | [], found, cache, ops => (found, cache, ops)
  | (k, e?) :: rest, found, cache, ops =>
    match e? with
    | none => mcPass2 keys rest (found.set (idxOfK keys k) none) cache ops
    | some d =>
      let r := mcCacheStore cache k d
      mcPass2 keys rest (found.set (idxOfK keys k) (some d)) r.1 (ops ++ r.2)

/-- `MemcacheAdapter.get_multi(keys)`: inside a transaction (non-empty
per-thread stack) the call delegates to the backing adapter and performs
no cache operation; otherwise cached entries fill their slots, the rest
are fetched from the backing adapter (whose results align with its input,
per the adapter contract) and written back.  Returns the result list, the
cache after the call and the log of cache operations. -/
def mcGetMulti {Data : Type} (txns : List MTxn) (cache : Cache Data)
    (store : List (Key × Data)) (keys : List Key) :
    List (Option Data) × Cache Data × List CacheOp :=
  if txns.isEmpty = false then
    (keys.map (lookupStore store), cache, [])
  else
    let pairs := dictKeys keys
    let r1 := mcPass1 cache keys pairs (List.replicate keys.length none) []
    mcPass2 keys (r1.2.zip (r1.2.map (lookupStore store))) r1.1 cache
      [.lookupMulti pairs]

/-- A put request (`PutRequest(key, unindexed, entity)`): only the key
matters to the caching layer. -/
structure PutReq (Data : Type) where
  key : Key
  data : Data
deriving DecidableEq, Repr

/-- `full_keys`: the non-partial keys of the batch (partial keys cannot
have cache entries). -/
def fullKeysOf {Data : Type} (reqs : List (PutReq Data)) : List Key :=
  (reqs.filter fun r => r.key.incomplete = false).map (·.key)

/-- Set lock placeholders on the given keys (the first half of
`_bust`). -/
def bustSet {Data : Type} (cache : Cache Data) (ks : List Key) : Cache Data :=
  ks.foldl (fun c k => fun x => if x = k then some .lockVal else c x) cache

/-- Delete the given keys from the cache (the `finally` half of
`_bust`). -/
def bustClear {Data : Type} (cache : Cache Data) (ks : List Key) : Cache Data :=
  ks.foldl (fun c k => fun x => if x = k then none else c x) cache

/-- `MemcacheAdapter.put_multi(requests)`: inside a transaction the
non-partial keys are recorded on the active transaction
(`current_transaction._push_keys`, which an inner transaction delegates
to its enclosing outer transaction) for commit-time invalidation, and the
backing write happens with no cache operation; outside a transaction the
backing write is wrapped in `_bust(full_keys)`: lock placeholders are set
on the non-partial keys, then the backing write runs, then those cache
keys are deleted.  Returns the keys from the backing adapter, the cache
after the call, the cache-operation log, and the keys recorded on the
active transaction. -/
def mcPutMulti {Data : Type} (txns : List MTxn) (cache : Cache Data)
    (backing : List (PutReq Data) → List Key) (reqs : List (PutReq Data)) :
    List Key × Cache Data × List CacheOp × List Key :=
  let fks := fullKeysOf reqs
  if txns.isEmpty = false then
    (backing reqs, cache, [], fks)
  else
    (backing reqs, bustClear (bustSet cache fks) fks,
     fks.map .lockSet ++ fks.map .del, [])

/-- C5: whenever `MemcacheAdapter.get_multi` runs while the per-thread
transaction stack is non-empty, it returns exactly the backing adapter's
aligned results, performs no cache operation and leaves the cache
untouched. -/
theorem mc_get_multi_in_transaction {Data : Type} (txns : List MTxn)
    (cache : Cache Data) (store : List (Key × Data)) (keys : List Key)
    (h : txns ≠ []) :
    mcGetMulti txns cache store keys = (keys.map (lookupStore store), cache, []) := by
  have : txns.isEmpty = false := by
    cases txns with
    | nil => exact absurd rfl h
    | cons a l => rfl
  simp [mcGetMulti, this]

/-- C5 witness: a one-element transaction stack makes `get_multi`
delegate to the backing store with no cache activity. -/
theorem mc_get_multi_in_transaction_witness :
    mcGetMulti [.mouter 0 (.outerT 0) []] (fun _ => none)
        [(⟨⟨"A", some (.intId 1), none⟩, []⟩, (3 : Nat))]
        [⟨⟨"A", some (.intId 1), none⟩, []⟩] =
      ([some 3], fun _ => none, []) := by
  have h := mc_get_multi_in_transaction [.mouter 0 (.outerT 0) []]
    (fun _ => (none : Option (CacheVal Nat)))
    [(⟨⟨"A", some (.intId 1), none⟩, []⟩, (3 : Nat))]
    [⟨⟨"A", some (.intId 1), none⟩, []⟩] (by simp)
  rw [h]
  rfl

theorem bustClear_mem {Data : Type} :
    ∀ (ks : List Key) (cache : Cache Data) (k : Key), k ∈ ks →
      bustClear cache ks k = none := by
  intro ks
  induction ks with
  | nil => intro _ _ hk; cases hk
  | cons a l ih =>
      intro cache k hk
      rw [List.mem_cons] at hk
      show bustClear (fun x => if x = a then none else cache x) l k = none
      by_cases hkl : k ∈ l
      · exact ih _ k hkl
      · have hka : k = a := by rcases hk with h | h; exact h; exact absurd h hkl
        subst hka
        have hfix : ∀ (c : Cache Data) (m : List Key) (x : Key), x ∉ m →
            bustClear c m x = c x := by
          intro c m
          induction m generalizing c with
          | nil => intro x _; rfl
          | cons b bs ihm =>
              intro x hx
              show bustClear (fun y => if y = b then none else c y) bs x = c x
              rw [ihm _ x (fun hxm => hx (by simp [hxm]))]
              simp only [List.mem_cons, not_or] at hx
              simp [hx.1]
        rw [hfix _ l k hkl]
        simp

theorem bustClear_not_mem {Data : Type} :
    ∀ (ks : List Key) (cache : Cache Data) (k : Key), k ∉ ks →
      bustClear cache ks k = cache k := by
  intro ks
  induction ks with
  | nil => intro _ _ _; rfl
  | cons a l ih =>
      intro cache k hk
      simp only [List.mem_cons, not_or] at hk
      show bustClear (fun x => if x = a then none else cache x) l k = cache k
      rw [ih _ k hk.2]
      simp [hk.1]

theorem bustSet_not_mem {Data : Type} :
    ∀ (ks : List Key) (cache : Cache Data) (k : Key), k ∉ ks →
      bustSet cache ks k = cache k := by
  intro ks
  induction ks with
  | nil => intro _ _ _; rfl
  | cons a l ih =>
      intro cache k hk
      simp only [List.mem_cons, not_or] at hk
      show bustSet (fun x => if x = a then some .lockVal else cache x) l k = cache k
      rw [ih _ k hk.2]
      simp [hk.1]

/-- C10: `MemcacheAdapter.put_multi` touches the cache only for the
non-partial keys of the batch.  Inside a transaction exactly the
non-partial keys are recorded on the active transaction, with no cache
operation and the cache untouched; outside, the lock-then-delete ops name
exactly the non-partial keys (in particular a batch of only partial keys
performs no cache operation), the non-partial keys end up evicted, and
every other key's cache entry is untouched.  The backing write happens in
both cases. -/
theorem mc_put_multi_frame {Data : Type} (txns : List MTxn) (cache : Cache Data)
    (backing : List (PutReq Data) → List Key) (reqs : List (PutReq Data)) :
    (txns ≠ [] →
      mcPutMulti txns cache backing reqs =
        (backing reqs, cache, [], fullKeysOf reqs)) ∧
    (txns = [] →
      (mcPutMulti txns cache backing reqs).1 = backing reqs ∧
      (mcPutMulti txns cache backing reqs).2.2.1 =
        (fullKeysOf reqs).map .lockSet ++ (fullKeysOf reqs).map .del ∧
      (mcPutMulti txns cache backing reqs).2.2.2 = [] ∧
      (∀ k ∈ fullKeysOf reqs, (mcPutMulti txns cache backing reqs).2.1 k = none) ∧
      (∀ k, k ∉ fullKeysOf reqs → (mcPutMulti txns cache backing reqs).2.1 k = cache k)) ∧
    ((∀ r ∈ reqs, r.key.incomplete = true) →
      (mcPutMulti txns cache backing reqs).2.2.1 = []) ∧
    (∀ k ∈ fullKeysOf reqs, k.incomplete = false ∧ k ∈ reqs.map (·.key)) := by
  refine ⟨?_, ?_, ?_, ?_⟩
  · intro h
    have : txns.isEmpty = false := by
      cases txns with
      | nil => exact absurd rfl h
      | cons a l => rfl
    simp [mcPutMulti, this]
  · intro h
    subst h
    refine ⟨rfl, rfl, rfl, ?_, ?_⟩
    · intro k hk
      show bustClear (bustSet cache (fullKeysOf reqs)) (fullKeysOf reqs) k = none
      exact bustClear_mem _ _ k hk
    · intro k hk
      show bustClear (bustSet cache (fullKeysOf reqs)) (fullKeysOf reqs) k = cache k
      rw [bustClear_not_mem _ _ k hk, bustSet_not_mem _ _ k hk]
  · intro hall
    have hfk : fullKeysOf reqs = [] := by
      rw [fullKeysOf, List.filter_eq_nil_iff.mpr]
      · rfl
      · intro r hr
        simp [hall r hr]
    cases htx : txns.isEmpty <;> simp [mcPutMulti, htx, hfk]
  · intro k hk
    simp only [fullKeysOf, List.mem_map] at hk
    obtain ⟨r, hr, hrk⟩ := hk
    rw [List.mem_filter] at hr
    subst hrk
    refine ⟨by simpa using hr.2, ?_⟩
    exact List.mem_map.mpr ⟨r, hr.1, rfl⟩

/-- C10 witness: one partial-key and one full-key request outside a
transaction evict only the full key; the same batch inside a transaction
records only the full key. -/
theorem mc_put_multi_frame_witness :
    (mcPutMulti [.mouter 0 (.outerT 0) []] (fun _ => none)
        (fun rs => rs.map (·.key))
        [⟨⟨⟨"A", none, none⟩, []⟩, (1 : Nat)⟩, ⟨⟨⟨"A", some (.intId 1), none⟩, []⟩, 2⟩] =
      ([⟨⟨"A", none, none⟩, []⟩, ⟨⟨"A", some (.intId 1), none⟩, []⟩],
       fun _ => none, [], [⟨⟨"A", some (.intId 1), none⟩, []⟩])) ∧
    (mcPutMulti ([] : List MTxn) (fun _ => none)
        (fun rs => rs.map (·.key))
        [⟨⟨⟨"A", none, none⟩, []⟩, (1 : Nat)⟩, ⟨⟨⟨"A", some (.intId 1), none⟩, []⟩, 2⟩]).2.2.1 =
      [.lockSet ⟨⟨"A", some (.intId 1), none⟩, []⟩, .del ⟨⟨"A", some (.intId 1), none⟩, []⟩] := by
  constructor
  · have h := (mc_put_multi_frame [.mouter 0 (.outerT 0) []] (fun _ => none)
      (fun rs => rs.map (·.key))
      [⟨⟨⟨"A", none, none⟩, []⟩, (1 : Nat)⟩, ⟨⟨⟨"A", some (.intId 1), none⟩, []⟩, 2⟩]).1
      (by simp)
    rw [h]
    rfl
  · have h := ((mc_put_multi_frame ([] : List MTxn) (fun _ => none)
      (fun rs => rs.map (·.key))
      [⟨⟨⟨"A", none, none⟩, []⟩, (1 : Nat)⟩, ⟨⟨⟨"A", some (.intId 1), none⟩, []⟩, 2⟩]).2.1
      rfl).2.1
    rw [h]
    rfl

/-! Alignment of `get_multi` results with the input keys (claim C1). -/

/-- A key misses the cache when its slot is empty or holds a lock
placeholder. -/
def cacheMiss {Data : Type} (cache : Cache Data) (k : Key) : Bool :=
  match cache k with
  | some (.entry _) => false
  | _ => true

theorem nodup_of_pairwiseK {keys : List Key}
    (h : keys.Pairwise fun a b => keyEq a b = false) : keys.Nodup := by
  refine List.Pairwise.imp ?_ h
  intro a b hab hEq
  rw [keyEq_of_eq hEq] at hab
  cases hab

theorem dictKeys_of_nodup : ∀ {keys : List Key}, keys.Nodup → dictKeys keys = keys := by
  intro keys
  induction keys with
  | nil => intro _; rfl
  | cons k ks ih =>
      intro h
      rw [List.nodup_cons] at h
      rw [dictKeys, ih h.2]
      congr 1
      apply List.filter_eq_self.mpr
      intro x hx
      exact decide_eq_true fun hxk => h.1 (hxk ▸ hx)

theorem idxOfK_getElem :
    ∀ {keys : List Key}, (keys.Pairwise fun a b => keyEq a b = false) →
      ∀ (i : Nat) (k : Key), keys[i]? = some k → idxOfK keys k = i := by
  intro keys
  induction keys with
  | nil => intro _ i k h; simp at h
  | cons a l ih =>
      intro hP i k hik
      rw [List.pairwise_cons] at hP
      cases i with
      | zero =>
          have : a = k := by simpa using hik
          subst this
          unfold idxOfK
          rw [List.findIdx_cons]
          simp [keyEq_refl]
      | succ i =>
          have hik' : l[i]? = some k := by simpa using hik
          have hk_mem : k ∈ l := by
            have := List.getElem?_eq_some_iff.mp hik'
            obtain ⟨hlt, hval⟩ := this
            exact hval ▸ List.getElem_mem hlt
          have hne : keyEq a k = false := hP.1 k hk_mem
          unfold idxOfK
          rw [List.findIdx_cons]
          have := ih hP.2 i k hik'
          unfold idxOfK at this
          simp [hne, this]

theorem idxOfK_spec {keys : List Key}
    (hP : keys.Pairwise fun a b => keyEq a b = false) {k : Key} (hk : k ∈ keys) :
    idxOfK keys k < keys.length ∧ keys[idxOfK keys k]? = some k := by
  obtain ⟨n, hn⟩ := List.getElem?_of_mem hk
  rw [idxOfK_getElem hP n k hn]
  exact ⟨(List.getElem?_eq_some_iff.mp hn).1, hn⟩

theorem idxOfK_inj {keys : List Key}
    (hP : keys.Pairwise fun a b => keyEq a b = false) {k1 k2 : Key}
    (h1 : k1 ∈ keys) (h2 : k2 ∈ keys) (hne : k1 ≠ k2) :
    idxOfK keys k1 ≠ idxOfK keys k2 := by
  intro hEq
  have s1 := (idxOfK_spec hP h1).2
  have s2 := (idxOfK_spec hP h2).2
  rw [hEq, s2] at s1
  exact hne (by simpa using s1.symm)

theorem mcPass1_length {Data : Type} (cache : Cache Data) (keys : List Key) :
    ∀ (ps : List Key) (found : List (Option Data)) (missing : List Key),
      (mcPass1 cache keys ps found missing).1.length = found.length := by
  intro ps
  induction ps with
  | nil => intro f m; rfl
  | cons k rest ih =>
      intro f m
      match hc : cache k with
      | some (.entry d) =>
          rw [show mcPass1 cache keys (k :: rest) f m =
            mcPass1 cache keys rest (f.set (idxOfK keys k) (some d)) m from by
              simp [mcPass1, hc]]
          rw [ih]
          simp
      | some .lockVal =>
          rw [show mcPass1 cache keys (k :: rest) f m =
            mcPass1 cache keys rest f (m ++ [k]) from by simp [mcPass1, hc]]
          exact ih _ _
      | none =>
          rw [show mcPass1 cache keys (k :: rest) f m =
            mcPass1 cache keys rest f (m ++ [k]) from by simp [mcPass1, hc]]
          exact ih _ _

theorem mcPass1_missing {Data : Type} (cache : Cache Data) (keys : List Key) :
    ∀ (ps : List Key) (found : List (Option Data)) (missing : List Key),
      (mcPass1 cache keys ps found missing).2 =
        missing ++ ps.filter (cacheMiss cache) := by
  intro ps
  induction ps with
  | nil => intro f m; simp [mcPass1]
  | cons k rest ih =>
      intro f m
      match hc : cache k with
      | some (.entry d) =>
          rw [show mcPass1 cache keys (k :: rest) f m =
            mcPass1 cache keys rest (f.set (idxOfK keys k) (some d)) m from by
              simp [mcPass1, hc]]
          rw [ih]
          simp [List.filter_cons, cacheMiss, hc]
      | some .lockVal =>
          rw [show mcPass1 cache keys (k :: rest) f m =
            mcPass1 cache keys rest f (m ++ [k]) from by simp [mcPass1, hc]]
          rw [ih]
          simp [List.filter_cons, cacheMiss, hc]
      | none =>
          rw [show mcPass1 cache keys (k :: rest) f m =
            mcPass1 cache keys rest f (m ++ [k]) from by simp [mcPass1, hc]]
          rw [ih]
          simp [List.filter_cons, cacheMiss, hc]

theorem mcPass1_get_untouched {Data : Type} (cache : Cache Data) (keys : List Key) :
    ∀ (ps : List Key) (found : List (Option Data)) (missing : List Key) (i : Nat),
      (∀ k ∈ ps, idxOfK keys k ≠ i) →
      (mcPass1 cache keys ps found missing).1[i]? = found[i]? := by
  intro ps
  induction ps with
  | nil => intro f m i _; rfl
  | cons k rest ih =>
      intro f m i hidx
      match hc : cache k with
      | some (.entry d) =>
          rw [show mcPass1 cache keys (k :: rest) f m =
            mcPass1 cache keys rest (f.set (idxOfK keys k) (some d)) m from by
              simp [mcPass1, hc]]
          rw [ih _ _ i (fun x hx => hidx x (by simp [hx]))]
          exact List.getElem?_set_ne (hidx k (by simp))
      | some .lockVal =>
          rw [show mcPass1 cache keys (k :: rest) f m =
            mcPass1 cache keys rest f (m ++ [k]) from by simp [mcPass1, hc]]
          exact ih _ _ i (fun x hx => hidx x (by simp [hx]))
      | none =>
          rw [show mcPass1 cache keys (k :: rest) f m =
            mcPass1 cache keys rest f (m ++ [k]) from by simp [mcPass1, hc]]
          exact ih _ _ i (fun x hx => hidx x (by simp [hx]))

theorem mcPass1_found {Data : Type} (cache : Cache Data) (keys : List Key)
    (hP : keys.Pairwise fun a b => keyEq a b = false) :
    ∀ (ps : List Key) (found : List (Option Data)) (missing : List Key),
      found.length = keys.length → ps.Nodup → (∀ x ∈ ps, x ∈ keys) →
      ∀ k ∈ ps,
        (mcPass1 cache keys ps found missing).1[idxOfK keys k]? =
          (match cache k with
           | some (.entry d) => some (some d)
           | _ => found[idxOfK keys k]?) := by
  intro ps
  induction ps with
  | nil => intro f m _ _ _ k hk; cases hk
  | cons a rest ih =>
      intro f m hlen hnd hmem k hk
      rw [List.nodup_cons] at hnd
      rw [List.mem_cons] at hk
      have hidx_ne : ∀ x ∈ rest, x ≠ a → idxOfK keys x ≠ idxOfK keys a :=
        fun x hx hne => idxOfK_inj hP (hmem x (by simp [hx])) (hmem a (by simp)) hne
      rcases hk with hk | hk
      · subst hk
        match hc : cache k with
        | some (.entry d) =>
            rw [show mcPass1 cache keys (k :: rest) f m =
              mcPass1 cache keys rest (f.set (idxOfK keys k) (some d)) m from by
                simp [mcPass1, hc]]
            rw [mcPass1_get_untouched cache keys rest _ m (idxOfK keys k)
              (fun x hx => hidx_ne x hx (fun hxk => hnd.1 (hxk ▸ hx)))]
            exact List.getElem?_set_self (by rw [hlen]; exact (idxOfK_spec hP (hmem k (by simp))).1)
        | some .lockVal =>
            rw [show mcPass1 cache keys (k :: rest) f m =
              mcPass1 cache keys rest f (m ++ [k]) from by simp [mcPass1, hc]]
            exact mcPass1_get_untouched cache keys rest f (m ++ [k]) (idxOfK keys k)
              (fun x hx => hidx_ne x hx (fun hxk => hnd.1 (hxk ▸ hx)))
        | none =>
            rw [show mcPass1 cache keys (k :: rest) f m =
              mcPass1 cache keys rest f (m ++ [k]) from by simp [mcPass1, hc]]
            exact mcPass1_get_untouched cache keys rest f (m ++ [k]) (idxOfK keys k)
              (fun x hx => hidx_ne x hx (fun hxk => hnd.1 (hxk ▸ hx)))
      · have hka : k ≠ a := fun hEq => hnd.1 (hEq ▸ hk)
        have hrec : ∀ (f' : List (Option Data)) (m' : List Key), f'.length = keys.length →
            f'[idxOfK keys k]? = f[idxOfK keys k]? →
            (mcPass1 cache keys rest f' m').1[idxOfK keys k]? =
              (match cache k with
               | some (.entry d) => some (some d)
               | _ => f[idxOfK keys k]?) := by
          intro f' m' hlen' hsame
          have := ih f' m' hlen' hnd.2 (fun x hx => hmem x (by simp [hx])) k hk
          rw [this, hsame]
        match hc : cache a with
        | some (.entry d) =>
            rw [show mcPass1 cache keys (a :: rest) f m =
              mcPass1 cache keys rest (f.set (idxOfK keys a) (some d)) m from by
                simp [mcPass1, hc]]
            exact hrec _ m (by simp [hlen])
              (List.getElem?_set_ne (fun hEq =>
                (idxOfK_inj hP (hmem a (by simp)) (hmem k (by simp [hk]))
                  (fun h => hka h.symm)) hEq))
        | some .lockVal =>
            rw [show mcPass1 cache keys (a :: rest) f m =
              mcPass1 cache keys rest f (m ++ [a]) from by simp [mcPass1, hc]]
            exact hrec f (m ++ [a]) hlen rfl
        | none =>
            rw [show mcPass1 cache keys (a :: rest) f m =
              mcPass1 cache keys rest f (m ++ [a]) from by simp [mcPass1, hc]]
            exact hrec f (m ++ [a]) hlen rfl

theorem mcPass2_length {Data : Type} (keys : List Key) :
    ∀ (zs : List (Key × Option Data)) (found : List (Option Data))
      (cache : Cache Data) (ops : List CacheOp),
      (mcPass2 keys zs found cache ops).1.length = found.length := by
  intro zs
  induction zs with
  | nil => intro f c o; rfl
  | cons p rest ih =>
      intro f c o
      obtain ⟨k, e?⟩ := p
      match e? with
      | none =>
          rw [show mcPass2 keys ((k, none) :: rest) f c o =
            mcPass2 keys rest (f.set (idxOfK keys k) none) c o from rfl]
          rw [ih]
          simp
      | some d =>
          rw [show mcPass2 keys ((k, some d) :: rest) f c o =
            mcPass2 keys rest (f.set (idxOfK keys k) (some d))
              (mcCacheStore c k d).1 (o ++ (mcCacheStore c k d).2) from rfl]
          rw [ih]
          simp

theorem mcPass2_get_untouched {Data : Type} (keys : List Key) :
    ∀ (zs : List (Key × Option Data)) (found : List (Option Data))
      (cache : Cache Data) (ops : List CacheOp) (i : Nat),
      (∀ p ∈ zs, idxOfK keys p.1 ≠ i) →
      (mcPass2 keys zs found cache ops).1[i]? = found[i]? := by
  intro zs
  induction zs with
  | nil => intro f c o i _; rfl
  | cons p rest ih =>
      intro f c o i hidx
      obtain ⟨k, e?⟩ := p
      have hk : idxOfK keys k ≠ i := hidx (k, e?) (by simp)
      match e? with
      | none =>
          rw [show mcPass2 keys ((k, none) :: rest) f c o =
            mcPass2 keys rest (f.set (idxOfK keys k) none) c o from rfl]
          rw [ih _ _ _ i (fun x hx => hidx x (by simp [hx]))]
          exact List.getElem?_set_ne hk
      | some d =>
          rw [show mcPass2 keys ((k, some d) :: rest) f c o =
            mcPass2 keys rest (f.set (idxOfK keys k) (some d))
              (mcCacheStore c k d).1 (o ++ (mcCacheStore c k d).2) from rfl]
          rw [ih _ _ _ i (fun x hx => hidx x (by simp [hx]))]
          exact List.getElem?_set_ne hk

theorem mcPass2_found {Data : Type} (keys : List Key)
    (hP : keys.Pairwise fun a b => keyEq a b = false) :
    ∀ (zs : List (Key × Option Data)) (found : List (Option Data))
      (cache : Cache Data) (ops : List CacheOp),
      found.length = keys.length → (zs.map (·.1)).Nodup →
      (∀ p ∈ zs, p.1 ∈ keys) →
      ∀ (k : Key) (v : Option Data), (k, v) ∈ zs →
        (mcPass2 keys zs found cache ops).1[idxOfK keys k]? = some v := by
  intro zs
  induction zs with
  | nil => intro f c o _ _ _ k v hkv; cases hkv
  | cons p rest ih =>
      intro f c o hlen hnd hmem k v hkv
      obtain ⟨a, e?⟩ := p
      rw [List.map_cons, List.nodup_cons] at hnd
      rw [List.mem_cons] at hkv
      rcases hkv with hkv | hkv
      · have hka : a = k := by cases hkv; rfl
        have hve : e? = v := by cases hkv; rfl
        subst hka hve
        have huntouched : ∀ x ∈ rest, idxOfK keys x.1 ≠ idxOfK keys a := by
          intro x hx
          refine idxOfK_inj hP (hmem x (by simp [hx])) (hmem (a, e?) (by simp)) ?_
          intro hEq
          exact hnd.1 (List.mem_map.mpr ⟨x, hx, hEq⟩)
        have hlt : idxOfK keys a < f.length := by
          rw [hlen]; exact (idxOfK_spec hP (hmem (a, e?) (by simp))).1
        match e? with
        | none =>
            rw [show mcPass2 keys ((a, none) :: rest) f c o =
              mcPass2 keys rest (f.set (idxOfK keys a) none) c o from rfl]
            rw [mcPass2_get_untouched keys rest _ _ _ _ huntouched]
            exact List.getElem?_set_self hlt
        | some d =>
            rw [show mcPass2 keys ((a, some d) :: rest) f c o =
              mcPass2 keys rest (f.set (idxOfK keys a) (some d))
                (mcCacheStore c a d).1 (o ++ (mcCacheStore c a d).2) from rfl]
            rw [mcPass2_get_untouched keys rest _ _ _ _ huntouched]
            exact List.getElem?_set_self hlt
      · have hka : a ≠ k := by
          intro hEq
          exact hnd.1 (List.mem_map.mpr ⟨(k, v), hkv, hEq.symm⟩)
        have hset : ∀ (x : Option Data), (f.set (idxOfK keys a) x).length = keys.length := by
          intro x; simp [hlen]
        have hrec := fun (f' : List (Option Data)) c' o' hl =>
          ih f' c' o' hl hnd.2 (fun x hx => hmem x (by simp [hx])) k v hkv
        match e? with
        | none =>
            rw [show mcPass2 keys ((a, none) :: rest) f c o =
              mcPass2 keys rest (f.set (idxOfK keys a) none) c o from rfl]
            exact hrec _ c o (hset none)
        | some d =>
            rw [show mcPass2 keys ((a, some d) :: rest) f c o =
              mcPass2 keys rest (f.set (idxOfK keys a) (some d))
                (mcCacheStore c a d).1 (o ++ (mcCacheStore c a d).2) from rfl]
            exact hrec _ _ _ (hset (some d))

theorem zip_self_map {α β : Type} (f : α → β) :
    ∀ l : List α, l.zip (l.map f) = l.map fun a => (a, f a) := by
  intro l
  induction l with
  | nil => rfl
  | cons a l ih => simp [List.zip_cons_cons, ih]

/-- The full alignment fact for `MemcacheAdapter.get_multi`: with
pairwise-distinct keys and a cache whose entries agree with the backing
store, the result list aligns position by position with the backing
store's contents, both inside and outside a transaction. -/
theorem mcGetMulti_aligned {Data : Type} (txns : List MTxn) (cache : Cache Data)
    (store : List (Key × Data)) (keys : List Key)
    (hP : keys.Pairwise fun a b => keyEq a b = false)
    (hcoh : ∀ k d, cache k = some (.entry d) → lookupStore store k = some d) :
    (mcGetMulti txns cache store keys).1.length = keys.length ∧
    (∀ (i : Nat) (k : Key), keys[i]? = some k →
      (mcGetMulti txns cache store keys).1[i]? = some (lookupStore store k)) := by
  cases htx : txns.isEmpty with
  | false =>
      rw [show mcGetMulti txns cache store keys =
        (keys.map (lookupStore store), cache, []) from by simp [mcGetMulti, htx]]
      refine ⟨by simp, ?_⟩
      intro i k hik
      simp [hik]
  | true =>
      have hnd : keys.Nodup := nodup_of_pairwiseK hP
      have hpairs : dictKeys keys = keys := dictKeys_of_nodup hnd
      have hmain : mcGetMulti txns cache store keys =
          mcPass2 keys
            ((mcPass1 cache keys keys (List.replicate keys.length none) []).2.zip
              ((mcPass1 cache keys keys (List.replicate keys.length none) []).2.map
                (lookupStore store)))
            (mcPass1 cache keys keys (List.replicate keys.length none) []).1 cache
            [.lookupMulti keys] := by
        simp [mcGetMulti, htx, hpairs]
      have hmiss : (mcPass1 cache keys keys (List.replicate keys.length none) []).2 =
          keys.filter (cacheMiss cache) := by
        rw [mcPass1_missing]
        simp
      have hf1len : (mcPass1 cache keys keys (List.replicate keys.length none) []).1.length =
          keys.length := by
        rw [mcPass1_length]
        simp
      have hzs : (mcPass1 cache keys keys (List.replicate keys.length none) []).2.zip
          ((mcPass1 cache keys keys (List.replicate keys.length none) []).2.map
            (lookupStore store)) =
          (keys.filter (cacheMiss cache)).map fun k => (k, lookupStore store k) := by
        rw [hmiss, zip_self_map]
      have hfirsts : (((keys.filter (cacheMiss cache)).map
          fun k => (k, lookupStore store k)).map (·.1)) = keys.filter (cacheMiss cache) := by
        rw [List.map_map]
        exact List.map_id _
      have hnd_miss : (keys.filter (cacheMiss cache)).Nodup := hnd.filter _
      have hmem_zs : ∀ p ∈ (keys.filter (cacheMiss cache)).map
          (fun k => (k, lookupStore store k)), p.1 ∈ keys := by
        intro p hp
        obtain ⟨k', hk', hpk⟩ := List.mem_map.mp hp
        rw [← hpk]
        exact (List.mem_filter.mp hk').1
      refine ⟨?_, ?_⟩
      · rw [hmain, mcPass2_length, hf1len]
      · intro i k hik
        have hidx : idxOfK keys k = i := idxOfK_getElem hP i k hik
        have hkmem : k ∈ keys := by
          obtain ⟨hlt, hval⟩ := List.getElem?_eq_some_iff.mp hik
          exact hval ▸ List.getElem_mem hlt
        rw [hmain, hzs]
        match hc : cache k with
        | some (.entry d) =>
            have hnotmiss : k ∉ keys.filter (cacheMiss cache) := by
              intro hmem'
              have hcm := (List.mem_filter.mp hmem').2
              rw [cacheMiss, hc] at hcm
              cases hcm
            rw [mcPass2_get_untouched keys _ _ _ _ i ?hunt]
            case hunt =>
              intro p hp hpi
              obtain ⟨k', hk', hpk⟩ := List.mem_map.mp hp
              have hk'1 : p.1 = k' := by rw [← hpk]
              rw [hk'1] at hpi
              have hs := (idxOfK_spec hP (List.mem_filter.mp hk').1).2
              rw [hpi, hik] at hs
              cases hs
              exact hnotmiss hk'
            have hfd := mcPass1_found cache keys hP keys
              (List.replicate keys.length none) [] (by simp) hnd (fun x hx => hx)
              k hkmem
            rw [hidx] at hfd
            rw [hfd, hc, hcoh k d hc]
        | some .lockVal =>
            have hkmiss : k ∈ keys.filter (cacheMiss cache) :=
              List.mem_filter.mpr ⟨hkmem, by rw [cacheMiss, hc]⟩
            have := mcPass2_found keys hP
              ((keys.filter (cacheMiss cache)).map fun x => (x, lookupStore store x))
              _ cache [.lookupMulti keys] hf1len (by rw [hfirsts]; exact hnd_miss)
              hmem_zs k (lookupStore store k)
              (List.mem_map.mpr ⟨k, hkmiss, rfl⟩)
            rw [hidx] at this
            exact this
        | none =>
            have hkmiss : k ∈ keys.filter (cacheMiss cache) :=
              List.mem_filter.mpr ⟨hkmem, by rw [cacheMiss, hc]⟩
            have := mcPass2_found keys hP
              ((keys.filter (cacheMiss cache)).map fun x => (x, lookupStore store x))
              _ cache [.lookupMulti keys] hf1len (by rw [hfirsts]; exact hnd_miss)
              hmem_zs k (lookupStore store k)
              (List.mem_map.mpr ⟨k, hkmiss, rfl⟩)
            rw [hidx] at this
            exact this

theorem checkKeys_ok (registered : List String) (hook : Key → Option Nat) :
    ∀ keys : List Key,
      (∀ k ∈ keys, k.incomplete = false ∧ k.kind ∈ registered ∧ hook k = none) →
      checkKeys registered hook keys = .ok () := by
  intro keys
  induction keys with
  | nil => intro _; rfl
  | cons k ks ih =>
      intro h
      obtain ⟨h1, h2, h3⟩ := h k (by simp)
      rw [checkKeys, if_neg (by simp [h1]), if_neg (by simp [h2]), h3]
      exact ih fun x hx => h x (by simp [hx])

theorem zipmap_getElem {α β γ : Type} (g : α → β → γ) :
    ∀ (ks : List α) (ds : List β) (i : Nat) (k : α) (d : β),
      ks[i]? = some k → ds[i]? = some d →
      ((ks.zip ds).map fun kd => g kd.1 kd.2)[i]? = some (g k d) := by
  intro ks
  induction ks with
  | nil => intro ds i k d h _; simp at h
  | cons a l ih =>
      intro ds i k d hk hd
      cases ds with
      | nil => simp at hd
      | cons b ds' =>
          cases i with
          | zero =>
              have ha : a = k := by simpa using hk
              have hb : b = d := by simpa using hd
              subst ha hb
              rw [List.zip_cons_cons, List.map_cons, List.getElem?_cons_zero]
          | succ i =>
              rw [List.zip_cons_cons, List.map_cons, List.getElem?_cons_succ]
              exact ih ds' i k d (by simpa using hk) (by simpa using hd)

/-- C1 (amended): for a non-empty batch of non-partial keys with
registered kinds (and quiet pre-hooks), `get_multi` returns a list of the
same length whose i-th element is the entity loaded for `keys[i]` (or
`None` when the backing store has no entity for it), positions matching
the input.  This holds unconditionally for the plain adapter path; for
the `MemcacheAdapter` path it additionally requires the input keys to be
pairwise distinct (under `Key.__eq__`) and the cache entries to agree
with the backing store.  The frozen claim's "including when the same key
appears more than once" is false for the `MemcacheAdapter` path: with
duplicates only the first occurrence is filled (see the
counterexample). -/
theorem get_multi_order_alignment {Data : Type} (env : Env Data)
    (cache : Cache Data) (txns : List MTxn) (keys : List Key)
    (hne : keys ≠ [])
    (hok : ∀ k ∈ keys, k.incomplete = false ∧ k.kind ∈ env.registered ∧
      env.preGetHook k = none) :
    (∃ res, get_multi env (fun ks => ks.map (lookupStore env.store)) keys =
        (.ok res, [keys]) ∧ res.length = keys.length ∧
      ∀ (i : Nat) (k : Key), keys[i]? = some k →
        res[i]? = some ((lookupStore env.store k).map fun d => (k, d))) ∧
    ((keys.Pairwise fun a b => keyEq a b = false) →
     (∀ (k : Key) (d : Data), cache k = some (.entry d) →
        lookupStore env.store k = some d) →
     ∃ res, get_multi env (fun ks => (mcGetMulti txns cache env.store ks).1) keys =
        (.ok res, [keys]) ∧ res.length = keys.length ∧
      ∀ (i : Nat) (k : Key), keys[i]? = some k →
        res[i]? = some ((lookupStore env.store k).map fun d => (k, d))) := by
  have hnemp : keys.isEmpty = false := by
    cases keys with
    | nil => exact absurd rfl hne
    | cons a l => rfl
  have hchk : checkKeys env.registered env.preGetHook keys = .ok () :=
    checkKeys_ok _ _ keys hok
  constructor
  · refine ⟨(keys.zip (keys.map (lookupStore env.store))).map
        (fun kd => kd.2.map fun d => (kd.1, d)),
      by simp [get_multi, hnemp, hchk], ?_, ?_⟩
    · simp
    · intro i k hik
      exact zipmap_getElem (fun a b => b.map fun d => (a, d)) keys
        (keys.map (lookupStore env.store)) i k (lookupStore env.store k) hik
        (by simp [hik])
  · intro hPw hcoh
    have hal := mcGetMulti_aligned txns cache env.store keys hPw hcoh
    refine ⟨(keys.zip (mcGetMulti txns cache env.store keys).1).map
        (fun kd => kd.2.map fun d => (kd.1, d)),
      by simp [get_multi, hnemp, hchk], ?_, ?_⟩
    · simp [hal.1]
    · intro i k hik
      exact zipmap_getElem (fun a b => b.map fun d => (a, d)) keys
        (mcGetMulti txns cache env.store keys).1 i k (lookupStore env.store k) hik
        (hal.2 i k hik)

/-- A registered, fully-specified key of kind `"M"` with datastore id 1. -/
def kM : Key := ⟨⟨"M", some (.intId 1), none⟩, []⟩

/-- A registered, fully-specified key of kind `"N"` with datastore id 2. -/
def kN : Key := ⟨⟨"N", some (.intId 2), none⟩, []⟩

/-- An environment with kinds `"M"` and `"N"` registered, quiet hooks,
and one stored entity under `kM`. -/
def envMN : Env Nat := ⟨["M", "N"], fun _ => none, fun _ => none, [(kM, 0)]⟩

/-- C1 counterexample: through the `MemcacheAdapter` (outside a
transaction, empty cache) the same key twice in the batch yields the
entity only at the first position; the second position is `None` even
though the entity exists in the backing store, so positions do not
correspond under duplicates. -/
theorem get_multi_order_alignment_cex :
    get_multi envMN
        (fun ks => (mcGetMulti ([] : List MTxn) (fun _ => none) envMN.store ks).1)
        [kM, kM] =
      (.ok [some (kM, 0), none], [[kM, kM]]) ∧
    lookupStore envMN.store kM = some 0 :=
  ⟨rfl, rfl⟩

/-- C1 witness: the amended theorem evaluated on the two distinct keys
`kM` (stored) and `kN` (absent) with an empty cache. -/
theorem get_multi_order_alignment_witness :
    (∃ res, get_multi envMN (fun ks => ks.map (lookupStore envMN.store)) [kM, kN] =
        (.ok res, [[kM, kN]]) ∧ res.length = [kM, kN].length ∧
      ∀ (i : Nat) (k : Key), [kM, kN][i]? = some k →
        res[i]? = some ((lookupStore envMN.store k).map fun d => (k, d))) ∧
    (∃ res, get_multi envMN
        (fun ks => (mcGetMulti ([] : List MTxn) (fun _ => none) envMN.store ks).1)
        [kM, kN] =
        (.ok res, [[kM, kN]]) ∧ res.length = [kM, kN].length ∧
      ∀ (i : Nat) (k : Key), [kM, kN][i]? = some k →
        res[i]? = some ((lookupStore envMN.store k).map fun d => (k, d))) := by
  have h := get_multi_order_alignment envMN (fun _ => none) ([] : List MTxn)
    [kM, kN] (by decide) (by decide)
  exact ⟨h.1, h.2 (by decide) (fun k d hkd => Option.noConfusion hkd)⟩

end Anom
